import Mathlib

/-!
Verification development for the JaxPY source-code editor.

The Python sources (`app.py`, `bolt_ai.py`) are shallowly embedded below:
documents are lists of lines (each a list of characters), the widget and
thread state is passed explicitly, and external effects (the Python
`compile` builtin, the `pip` subprocess, the executed user code) appear as
explicit outcome parameters.
-/

namespace JaxPY

/-! ## Python string helpers (str.lstrip / str.rstrip / indentation) -/

/-- Python `str.lstrip()` on a list of characters: drop leading whitespace. -/
def pyLstrip : List Char → List Char
  | [] => []
  | c :: cs => if c.isWhitespace then pyLstrip cs else c :: cs

/-- Python `str.rstrip()`: drop trailing whitespace. -/
def pyRstrip (l : List Char) : List Char :=
  (pyLstrip l.reverse).reverse

/-- Python `len(text) - len(text.lstrip())`: the indentation width used by
`CodeEditor.detect_foldable_lines`. -/
def indentOf (l : List Char) : Nat :=
  l.length - (pyLstrip l).length

/-! ## `CodeEditor.detect_foldable_lines` (app.py lines 421-450)

A document is a list of blocks; `QTextDocument` block `n` is entry `n`.
The editor state mutated by the pass (`foldable_lines`, `fold_ranges`,
`fold_types`) is collected in `FoldData`; `_add_foldable` appends to all
three in lockstep. -/

/-- The tuple of prefixes tested by
`text.startswith(("def ", "class ", "if ", "for ", "while ", "try:", "with "))`. -/
def foldStarters : List (List Char) :=
  ["def ", "class ", "if ", "for ", "while ", "try:", "with "].map String.toList

/-- Whether a (right-stripped) line text starts a foldable block. -/
def startsFold (text : List Char) : Bool :=
  foldStarters.any (fun p => p.isPrefixOf text)

/-- Python `"def" if text.startswith("def ") else "class" if text.startswith("class ") else "other"`. -/
def blockTypeOf (text : List Char) : String :=
  if ("def ".toList).isPrefixOf text then "def"
  else if ("class ".toList).isPrefixOf text then "class"
  else "other"

/-- The three per-editor containers filled by `_add_foldable`. -/
structure FoldData where
  foldable_lines : List Nat
  fold_ranges : List (Nat × Nat)
  fold_types : List (Nat × String)
  deriving Repr, DecidableEq

def FoldData.empty : FoldData := ⟨[], [], []⟩

/-- Model of `CodeEditor._add_foldable(start, end, block_type)`. -/
def addFoldable (d : FoldData) (s e : Nat) (t : String) : FoldData :=
  ⟨d.foldable_lines ++ [s], d.fold_ranges ++ [(s, e)], d.fold_types ++ [(s, t)]⟩

/-- A stack entry `(start_line, indent, block_type)`; the head of the list is
the top of the Python list used as a stack. -/
abbrev StackEntry := Nat × Nat × String

/-- The inner `while indent_stack and indent_stack[-1][1] >= current_indent`
loop: pop entries and record the ones spanning more than one line. -/
def popAll (cur ci : Nat) : List StackEntry → FoldData → List StackEntry × FoldData
  | [], d => ([], d)
  | e :: rest, d =>
    if ci ≤ e.2.1 then
      popAll cur ci rest (if 1 < cur - e.1 then addFoldable d e.1 (cur - 1) e.2.2 else d)
    else (e :: rest, d)

/-- The block-by-block walk of `detect_foldable_lines`: `n` is the current
block number, blank (fully whitespace) lines are skipped, non-blank lines
first pop then possibly push. -/
def detectLoop : List (List Char) → Nat → List StackEntry → FoldData →
    List StackEntry × FoldData
  | [], _, st, d => (st, d)
  | line :: rest, n, st, d =>
    let text := pyRstrip line
    if text = [] then detectLoop rest (n + 1) st d
    else
      let ci := indentOf line
      let p := popAll n ci st d
      let st2 := if startsFold text then (n, ci, blockTypeOf text) :: p.1 else p.1
      detectLoop rest (n + 1) st2 p.2

/-- The final `for start_line, _, block_type in indent_stack` loop closing the
entries still on the stack at `end_line = blockCount - 1` (the Python list is
iterated bottom-of-stack first, hence `st.reverse`). -/
def closeRemaining (endLine : Nat) (st : List StackEntry) (d : FoldData) : FoldData :=
  st.reverse.foldl
    (fun d e => if 1 < endLine - e.1 then addFoldable d e.1 endLine e.2.2 else d) d

/-- Model of `CodeEditor.detect_foldable_lines` over a document given as its list of
block texts. -/
def detect_foldable_lines (doc : List (List Char)) : FoldData :=
  let p := detectLoop doc 0 [] FoldData.empty
  closeRemaining (doc.length - 1) p.1 p.2

/-! ### Specification-side fold detector (claim C1's wording)

The claim describes the pass as: a single top-to-bottom walk; a non-blank
line first pops every stack entry whose recorded indentation is ≥ the line's
indentation, recording each popped entry whose header is more than one line
above as a range ending on the previous line; then pushes exactly when its
text starts with one of the seven prefixes; entries surviving the walk are
closed at the last line under the same more-than-one-line condition. -/

/-- One step of the claimed algorithm on an indexed line. -/
def specStep (acc : List StackEntry × List (Nat × Nat)) (nl : Nat × List Char) :
    List StackEntry × List (Nat × Nat) :=
  let text := pyRstrip nl.2
  if text = [] then acc
  else
    let ci := indentOf nl.2
    let popped := acc.1.filter (fun e => ci ≤ e.2.1)
    let kept := acc.1.filter (fun e => ¬ ci ≤ e.2.1)
    let rs := acc.2 ++ popped.filterMap
      (fun e => if 1 < nl.1 - e.1 then some (e.1, nl.1 - 1) else none)
    let st := if startsFold text then (nl.1, ci, blockTypeOf text) :: kept else kept
    (st, rs)

/-- The fold ranges as described by claim C1. -/
def detect_spec (doc : List (List Char)) : List (Nat × Nat) :=
  let p := doc.enum.foldl specStep ([], [])
  let endLine := doc.length - 1
  p.2 ++ p.1.reverse.filterMap
    (fun e => if 1 < endLine - e.1 then some (e.1, endLine) else none)

/-- The fold-recording prefix of `popAll`: what the popped entries contribute
to the fold data at closing line `cur`. -/
def recordPopped (cur : Nat) (l : List StackEntry) (d : FoldData) : FoldData :=
  l.foldl (fun d e => if 1 < cur - e.1 then addFoldable d e.1 (cur - 1) e.2.2 else d) d

/-- The indentation stack is strictly decreasing from the top (the head). -/
def StackSorted (st : List StackEntry) : Prop :=
  List.Pairwise (fun a b => b.2.1 < a.2.1) st

/-- A `FoldData` whose three containers were filled in lockstep by
`_add_foldable`. -/
def Lockstep (d : FoldData) : Prop :=
  d.foldable_lines = d.fold_ranges.map Prod.fst ∧
  d.fold_types.map Prod.fst = d.fold_ranges.map Prod.fst

/-! ## `CodeEditor.toggle_fold` (app.py lines 452-467)

The per-editor state toggled: the document's blocks (`blockCount` of them,
each with a visibility flag), the `fold_ranges` dictionary and the
`folded_blocks` set.  The `while block.isValid() and blockNumber <= end_line`
loop sets the visibility of blocks `line_number+1 .. fold_ranges[line_number]`
that exist in the document. -/

structure ToggleState where
  blockCount : Nat
  visible : Nat → Bool
  fold_ranges : List (Nat × Nat)
  folded_blocks : Finset Nat

/-- Dictionary lookup `line_number in self.fold_ranges` /
`self.fold_ranges[line_number]`. -/
def lookupRange (rs : List (Nat × Nat)) (n : Nat) : Option Nat :=
  (rs.find? (fun p => p.1 == n)).map Prod.snd

/-- Model of `CodeEditor.toggle_fold(line_number)`. -/
def toggle_fold (st : ToggleState) (n : Nat) : ToggleState :=
  match lookupRange st.fold_ranges n with
  | none => st
  | some endLine =>
    let is_folding : Bool := decide (n ∉ st.folded_blocks)
    { st with
      folded_blocks :=
        if is_folding then insert n st.folded_blocks else st.folded_blocks.erase n,
      visible := fun m =>
        if n + 1 ≤ m ∧ m ≤ endLine ∧ m < st.blockCount then !is_folding
        else st.visible m }

/-! ## `ConsoleWidget` (app.py lines 615-683)

The console is a `QTextEdit`: its plain text is a list of characters, a text
cursor position, the read-only flag, and the input-protocol fields
`reading_input`, `input_pos`, `input_buffer`.  Key events cover the keys the
`keyPressEvent` override treats specially (Backspace, Return, Left, Home),
plain character input, and the navigation and deletion keys the override
forwards to `super().keyPressEvent` (Right, Up, Down, Delete); the toolkit's
default handling is the usual text-edit editing at the cursor, with Up and
Down moving by one logical line preserving the column, clamped to the target
line's end and unchanged on the first or last line.  Shift-modified
selection is not modelled; statements about the pending-read protection
quantify over sequences drawn from this alphabet. -/

inductive Key
  | char (c : Char)
  | backspace
  | enter
  | left
  | right
  | home
  | up
  | down
  | delete
  deriving DecidableEq, Repr

structure ConsoleState where
  text : List Char
  cursor : Nat
  readOnly : Bool
  reading_input : Bool
  input_pos : Nat
  input_buffer : List Char
  deriving Repr, DecidableEq

def insertAt (l : List Char) (i : Nat) (c : Char) : List Char :=
  l.take i ++ c :: l.drop i

def removeAt (l : List Char) (i : Nat) : List Char :=
  l.take i ++ l.drop (i + 1)

/-- Index of the first character of the line containing position `p` of `t`:
one past the last newline strictly before `p`, or `0` on the first line. -/
def lineStartOf (t : List Char) (p : Nat) : Nat :=
  ((t.take p).foldl
    (fun acc c => if c = '\n' then (acc.2 + 1, acc.2 + 1) else (acc.1, acc.2 + 1))
    ((0 : Nat), (0 : Nat))).1

/-- Index one past the last character of the line containing position `p` of
`t`: the position of the next newline at or after `p`, or `t.length`. -/
def lineEndOf (t : List Char) (p : Nat) : Nat :=
  p + ((t.drop p).takeWhile (fun c => c != '\n')).length

/-- Cursor position after an Up arrow from position `p`: the same column on
the previous line, clamped to that line's end; unchanged on the first line. -/
def moveUp (t : List Char) (p : Nat) : Nat :=
  if lineStartOf t p = 0 then p
  else
    min (lineStartOf t (lineStartOf t p - 1) + (p - lineStartOf t p))
      (lineStartOf t p - 1)

/-- Cursor position after a Down arrow from position `p`: the same column on
the next line, clamped to that line's end; unchanged on the last line. -/
def moveDown (t : List Char) (p : Nat) : Nat :=
  if lineEndOf t p = t.length then p
  else
    min (lineEndOf t p + 1 + (p - lineStartOf t p))
      (lineEndOf t (lineEndOf t p + 1))

/-- Model of `QTextEdit`'s default key handling at the current cursor: edits
happen at the cursor, Left/Right move by one character, Up/Down by one line
preserving the column, Delete removes the character at the cursor (a no-op at
the end of the text), Home moves to the start of the line (never reached
while a read is pending, since the override intercepts Home). -/
def defaultKey (st : ConsoleState) (k : Key) : ConsoleState :=
  match k with
  | .char c => { st with text := insertAt st.text st.cursor c, cursor := st.cursor + 1 }
  | .backspace =>
    if st.cursor = 0 then st
    else { st with text := removeAt st.text (st.cursor - 1), cursor := st.cursor - 1 }
  | .left => { st with cursor := st.cursor - 1 }
  | .right => { st with cursor := min (st.cursor + 1) st.text.length }
  | .home => { st with cursor := lineStartOf st.text st.cursor }
  | .up => { st with cursor := moveUp st.text st.cursor }
  | .down => { st with cursor := moveDown st.text st.cursor }
  | .delete => { st with text := removeAt st.text st.cursor }
  | .enter => { st with text := insertAt st.text st.cursor '\n', cursor := st.cursor + 1 }

/-- Model of `ConsoleWidget.keyPressEvent`.  When `reading_input` is false every key is
swallowed (only a clipboard copy can happen).  Otherwise: Backspace at or
before `input_pos` is ignored; Return captures the text from `input_pos` to
the end into `input_buffer`, inserts a newline at the cursor, ends the read
and restores read-only; Left at or before `input_pos` is ignored; Home jumps
to `input_pos`; everything else falls through to the default handling. -/
def keyPressEvent (st : ConsoleState) (k : Key) : ConsoleState :=
  if st.reading_input = false then st
  else if k = .backspace ∧ st.cursor ≤ st.input_pos then st
  else if k = .enter then
    { st with
      input_buffer := st.text.drop st.input_pos,
      text := insertAt st.text st.cursor '\n',
      cursor := st.cursor + 1,
      reading_input := false,
      readOnly := true }
  else if k = .left ∧ st.cursor ≤ st.input_pos then st
  else if k = .home then { st with cursor := st.input_pos }
  else defaultKey st k

/-- Model of `ConsoleWidget.start_input`: begin a read, make the console writable,
move the cursor to the end and record that position. -/
def start_input (st : ConsoleState) : ConsoleState :=
  { st with
    reading_input := true,
    readOnly := false,
    cursor := st.text.length,
    input_pos := st.text.length }

/-- The `while self.reading_input: QApplication.processEvents()` busy-wait:
events are delivered one by one while the read is pending.  `none` models a
read that never sees Return. -/
def pumpEvents : List Key → ConsoleState → Option ConsoleState
  | [], st => if st.reading_input then none else some st
  | k :: ks, st =>
    if st.reading_input then pumpEvents ks (keyPressEvent st k) else some st

/-- Model of `ConsoleWidget.readline`: `start_input`, pump events until the read ends,
return `input_buffer + '\n'` together with the final console state. -/
def readline (st : ConsoleState) (events : List Key) :
    Option (List Char × ConsoleState) :=
  (pumpEvents events (start_input st)).map (fun st2 => (st2.input_buffer ++ ['\n'], st2))

/-! ## `PythonInterpreter.run` (app.py lines 697-720)

The process stream bindings (`sys.stdout`, `sys.stderr`, `sys.stdin`) are a
triple of stream targets; `exec` is an external effect whose outcome is a
parameter; `self._running` is read twice (at entry and in the `finally`
block), each read a Boolean parameter. -/

inductive StreamTarget
  | host (n : Nat)
  | consoleWidget
  | capturedBuffer
  deriving DecidableEq, Repr

structure SysState where
  stdout : StreamTarget
  stderr : StreamTarget
  stdin : StreamTarget
  deriving DecidableEq, Repr

inductive ExecOutcome
  | ok
  | moduleNotFound (modName : String)
  | exn (msg : String)
  deriving DecidableEq, Repr

structure RunResult where
  sysDuringExec : Option SysState
  sysFinal : SysState
  finishedEmitted : Bool
  errorDetected : Option String
  consoleWrites : List String
  deriving DecidableEq, Repr

/-- Model of `PythonInterpreter.run`: save the three streams, point `sys.stdout` and
`sys.stdin` at the console and `sys.stderr` at an in-memory buffer, `exec`
the code, then in `finally` flush the captured stderr text to the console,
restore the saved streams, and emit `finished` if still running. -/
def interpreterRun (runningAtStart runningAtFinally : Bool) (sys0 : SysState)
    (outcome : ExecOutcome) (capturedText : String) : RunResult :=
  if runningAtStart = false then
    ⟨none, sys0, false, none, []⟩
  else
    let saved := (sys0.stdout, sys0.stderr, sys0.stdin)
    let sys1 : SysState := { sys0 with stdout := .consoleWidget }
    let sys2 : SysState := { sys1 with stderr := .capturedBuffer }
    let sys3 : SysState := { sys2 with stdin := .consoleWidget }
    let handled : Option String × List String :=
      match outcome with
      | .ok => (none, [])
      | .moduleNotFound m => (some m, [m ++ "\n", "traceback"])
      | .exn _ => (none, ["traceback"])
    let flushed :=
      if capturedText = "" then handled.2 else handled.2 ++ [capturedText]
    let sysF : SysState :=
      { sys3 with stdout := saved.1, stderr := saved.2.1, stdin := saved.2.2 }
    ⟨some sys3, sysF, runningAtFinally, handled.1, flushed⟩

/-! ## `PackageInstaller.run` (app.py lines 741-760)

The `pip install` subprocess is an external effect: it either exits with a
return code (plus captured stdout/stderr) or raises. -/

inductive PipOutcome
  | exited (returncode : Int) (out err : String)
  | raised (msg : String)
  deriving DecidableEq, Repr

structure InstallResult where
  outputs : List String
  finishedSignals : List Bool
  deriving DecidableEq, Repr

/-- Model of `PackageInstaller.run`. -/
def installerRun (runningAtStart runningAtEmit : Bool) (pkg : String)
    (outcome : PipOutcome) : InstallResult :=
  if runningAtStart = false then ⟨[], []⟩
  else
    match outcome with
    | .exited rc out err =>
      let success : Bool := rc == 0
      let msg :=
        (if success then "Successfully installed " else "Failed to install ") ++
          pkg ++ ":\n" ++ (if success then out else err) ++ "\n"
      ⟨["Installing " ++ pkg ++ "...\n", msg],
       if runningAtEmit then [success] else []⟩
    | .raised m =>
      ⟨["Installing " ++ pkg ++ "...\n", "Error: " ++ m ++ "\n"], [false]⟩

/-! ## `PythonHighlighter._check_full_syntax` (app.py lines 237-252)

The `compile` builtin is an external effect: it succeeds, raises a
`SyntaxError` (with an optional line number), or raises something else.
`self.errors` is a dictionary, modelled as an association list with
Python-dict assignment semantics. -/

/-- Python `str.strip()`. -/
def pyStrip (l : List Char) : List Char :=
  pyLstrip (pyRstrip l)

inductive CompileResult
  | ok
  | syntaxError (lineno : Option Nat) (msg : String)
  | otherError (msg : String)
  deriving DecidableEq, Repr

/-- Python dict assignment `errors[k] = v`: replace the value if the key is
present, otherwise append the new entry. -/
def insertEntry (es : List (Nat × String)) (k : Nat) (v : String) :
    List (Nat × String) :=
  if es.any (fun p => p.1 == k) then
    es.map (fun p => if p.1 == k then (k, v) else p)
  else es ++ [(k, v)]

/-- Model of `PythonHighlighter._check_full_syntax`: clear on blank text or successful
compilation; on a syntax error with a line number only add `errors[lineno-1]`;
on any other exception only add `errors[0]`. -/
def check_full_syntax (lastText : String) (result : CompileResult)
    (errors : List (Nat × String)) : List (Nat × String) :=
  if pyStrip lastText.toList = [] then []
  else
    match result with
    | .ok => []
    | .syntaxError (some n) m => insertEntry errors (n - 1) m
    | .syntaxError none _ => errors
    | .otherError m => insertEntry errors 0 ("General compilation error: " ++ m)

/-- Model of `CodeEditor.update_error_warning_count`: the count shown to the user is
the size of the errors dictionary. -/
def errorCountDisplayed (errors : List (Nat × String)) : Nat :=
  errors.length

/-! ## `BoltAI.display_response` (bolt_ai.py lines 175-229)

The response string is split on triple backticks; even segments are rendered
as HTML text, odd segments as code blocks whose attached code is computed
from the stripped segment's lines.  The Python string operations are
implemented over `List Char` with an explicit fuel argument (the input
length) so that they compute by structural recursion. -/

/-- Python `str.split(sep)` for a nonempty separator (fuelled helper). -/
def pySplitFuel (sep : List Char) : Nat → List Char → List (List Char)
  | _, [] => [[]]
  | 0, l => [l]
  | fuel + 1, c :: cs =>
    if sep ≠ [] ∧ sep.isPrefixOf (c :: cs) then
      [] :: pySplitFuel sep fuel ((c :: cs).drop sep.length)
    else
      match pySplitFuel sep fuel cs with
      | [] => [[c]]
      | g :: gs => (c :: g) :: gs

/-- Python `str.split(sep)`. -/
def pySplit (sep s : List Char) : List (List Char) :=
  pySplitFuel sep s.length s

/-- Python `str.replace(pat, rep)` for a nonempty pattern (fuelled helper). -/
def pyReplaceFuel (pat rep : List Char) : Nat → List Char → List Char
  | _, [] => []
  | 0, l => l
  | fuel + 1, c :: cs =>
    if pat ≠ [] ∧ pat.isPrefixOf (c :: cs) then
      rep ++ pyReplaceFuel pat rep fuel ((c :: cs).drop pat.length)
    else c :: pyReplaceFuel pat rep fuel cs

/-- Python `str.replace(pat, rep)`. -/
def pyReplace (pat rep s : List Char) : List Char :=
  pyReplaceFuel pat rep s.length s

/-- Python `str.splitlines()` restricted to `\n` separators: no trailing
empty line. -/
def pySplitlines (s : List Char) : List (List Char) :=
  if s = [] then []
  else
    let parts := pySplit ['\n'] s
    if parts.getLast? = some [] then parts.dropLast else parts

def tripleBacktick : List Char := "```".toList

inductive Segment
  | textPart (html : List Char)
  | codeBlock (code : List Char)
  deriving DecidableEq, Repr

/-- Model of `BoltAI.display_response`, reduced to the segment structure it renders:
even-indexed split parts become text with `\n` replaced by `<br>`; odd parts
become code blocks; the code is computed from `part.strip().splitlines()`:
when the first stripped line does not start with a space it is dropped as the
language tag and the rest joined with newlines (empty when it was the only
line), otherwise the raw part is the code. -/
def display_response_segments (response : List Char) : List Segment :=
  (pySplit tripleBacktick response).enum.map (fun ip =>
    if ip.1 % 2 == 0 then .textPart (pyReplace ['\n'] "<br>".toList ip.2)
    else
      match pySplitlines (pyStrip ip.2) with
      | [] => .codeBlock ip.2
      | first :: rest =>
        if [' '].isPrefixOf first then .codeBlock ip.2
        else .codeBlock (if rest ≠ [] then List.intercalate ['\n'] rest else []))

/-- Claim C7's parse: the language-tag test and the line split are applied to
the raw segment, not to the stripped segment. -/
def claim_segments (response : List Char) : List Segment :=
  (pySplit tripleBacktick response).enum.map (fun ip =>
    if ip.1 % 2 == 0 then .textPart (pyReplace ['\n'] "<br>".toList ip.2)
    else
      match pySplitlines ip.2 with
      | [] => .codeBlock ip.2
      | first :: rest =>
        if [' '].isPrefixOf first then .codeBlock ip.2
        else .codeBlock (List.intercalate ['\n'] rest))

/-- Claim C7 (amended wording): as the claim, except that the first-line test
and the removal of the language tag are applied to the lines of the
*stripped* segment. -/
def amended_segments (response : List Char) : List Segment :=
  (pySplit tripleBacktick response).enum.map (fun ip =>
    if ip.1 % 2 == 0 then .textPart (pyReplace ['\n'] "<br>".toList ip.2)
    else
      match pySplitlines (pyStrip ip.2) with
      | [] => .codeBlock ip.2
      | first :: rest =>
        if [' '].isPrefixOf first then .codeBlock ip.2
        else .codeBlock (List.intercalate ['\n'] rest))

/-! ## `HighlightRules.get_rules` / `PythonHighlighter.highlightBlock`
(app.py lines 190-220 and 268-295)

Each of the seven QRegExp patterns is embedded as a recognizer that, at a
scan position, returns the length the greedy engine matches there (plus the
captured-group length for the function-name rule).  A separate declarative
relation `ruleMatches` states what it means for a substring to match the
rule's pattern; the longest-match property relates the two.  `setFormat` is
a map from character positions to formats, later writes overwriting earlier
ones. -/

/-- QRegExp `\w`. -/
def isWordChar (c : Char) : Bool :=
  c.isAlphanum || c == '_'

def wordAt (t : List Char) (i : Nat) : Bool :=
  match t.get? i with
  | some c => isWordChar c
  | none => false

/-- QRegExp `\b` between positions `i-1` and `i`. -/
def boundaryAt (t : List Char) (i : Nat) : Bool :=
  (if i = 0 then false else wordAt t (i - 1)) != wordAt t i

/-- Python 3 `keyword.kwlist`. -/
def kwlist : List String :=
  ["False", "None", "True", "and", "as", "assert", "async", "await", "break",
   "class", "continue", "def", "del", "elif", "else", "except", "finally",
   "for", "from", "global", "if", "import", "in", "is", "lambda", "nonlocal",
   "not", "or", "pass", "raise", "return", "try", "while", "with", "yield"]

inductive RuleId
  | keywordsRule
  | dqStringRule
  | sqStringRule
  | commentRule
  | numberRule
  | operatorRule
  | functionRule
  deriving DecidableEq, Repr

inductive Fmt
  | keywordFmt
  | stringFmt
  | commentFmt
  | numberFmt
  | operatorFmt
  | functionFmt
  deriving DecidableEq, Repr

/-- Model of `HighlightRules.get_rules()`: the rule list built in source order. -/
def get_rules : List (RuleId × Fmt) :=
  [] ++ [(.keywordsRule, .keywordFmt)]
     ++ [(.dqStringRule, .stringFmt)]
     ++ [(.sqStringRule, .stringFmt)]
     ++ [(.commentRule, .commentFmt)]
     ++ [(.numberRule, .numberFmt)]
     ++ [(.operatorRule, .operatorFmt)]
     ++ [(.functionRule, .functionFmt)]

/-- The substring of `t` starting at `i` of length `l`. -/
def sub (t : List Char) (i l : Nat) : List Char :=
  (t.drop i).take l

/-- The single-quote character (the pattern for single-quoted strings). -/
def squote : Char := Char.ofNat 39

/-! ### Keyword rule: the alternation of `\b<kw>\b` over `keyword.kwlist` -/

/-- One alternative `\b<kw>\b` matching at `i`. -/
def kwCheck (t : List Char) (i : Nat) (k : String) : Bool :=
  k.toList.isPrefixOf (t.drop i) && boundaryAt t i && boundaryAt t (i + k.length)

/-- The engine tries the alternatives in `kwlist` order. -/
def kwMatchLen (t : List Char) (i : Nat) : Option Nat :=
  (kwlist.find? (kwCheck t i)).map String.length

/-! ### String rules: `"[^"\\]*(\\.[^"\\]*)*"` and its single-quote twin -/

/-- Does this character list consist of a string body followed by the closing
quote, with nothing after? -/
def quoteTail (q : Char) : List Char → Bool
  | [] => false
  | c :: cs =>
    if c = q then cs.isEmpty
    else if c = '\\' then
      match cs with
      | [] => false
      | _ :: cs2 => quoteTail q cs2
    else quoteTail q cs

/-- The whole match: opening quote, body, closing quote. -/
def quoteForm (q : Char) (s : List Char) : Bool :=
  match s with
  | c :: cs => c = q && quoteTail q cs
  | [] => false

/-- Scan for the closing quote; returns the number of characters consumed
including it. -/
def quoteFind (q : Char) : List Char → Option Nat
  | [] => none
  | c :: cs =>
    if c = q then some 1
    else if c = '\\' then
      match cs with
      | [] => none
      | _ :: cs2 => (quoteFind q cs2).map (· + 2)
    else (quoteFind q cs).map (· + 1)

def quoteMatchLen (q : Char) (t : List Char) (i : Nat) : Option Nat :=
  match t.get? i with
  | some c => if c = q then (quoteFind q (t.drop (i + 1))).map (· + 1) else none
  | none => none

/-! ### Comment rule: `#[^\n]*` -/

def commentRun (t : List Char) (i : Nat) : Nat :=
  ((t.drop (i + 1)).takeWhile (fun c => c != '\n')).length

def commentMatchLen (t : List Char) (i : Nat) : Option Nat :=
  match t.get? i with
  | some c => if c = '#' then some (1 + commentRun t i) else none
  | none => none

/-! ### Number rule: `\b[0-9]+\.?[0-9]*\b` -/

def digitRun (t : List Char) (i : Nat) : Nat :=
  ((t.drop i).takeWhile Char.isDigit).length

/-- The bare shape `[0-9]+\.?[0-9]*`. -/
def numShape (s : List Char) : Bool :=
  let p := s.span Char.isDigit
  (!p.1.isEmpty) &&
    (match p.2 with
     | [] => true
     | c :: cs => c == '.' && cs.all Char.isDigit)

/-- The full pattern with the two word boundaries. -/
def numMatchesB (t : List Char) (i l : Nat) : Bool :=
  boundaryAt t i && boundaryAt t (i + l) && decide (i + l ≤ t.length) &&
    numShape (sub t i l)

/-- The candidate lengths in the order the greedy engine backtracks through
them: all of `[0-9]+\.[0-9]*` from the longest digit tail down, then the
dotless `[0-9]+`. -/
def numCands (t : List Char) (i : Nat) : List Nat :=
  let d1 := digitRun t i
  if d1 = 0 then []
  else if t.get? (i + d1) = some '.' then
    ((List.range (digitRun t (i + d1 + 1) + 1)).reverse.map (fun k => d1 + 1 + k)) ++ [d1]
  else [d1]

def numMatchLen (t : List Char) (i : Nat) : Option Nat :=
  (numCands t i).find? (numMatchesB t i)

/-! ### Operator rule: `[\+\-\*/=<>!&|%^]+` -/

def opChars : List Char := "+-*/=<>!&|%^".toList

def isOpChar (c : Char) : Bool := opChars.contains c

def opRun (t : List Char) (i : Nat) : Nat :=
  ((t.drop i).takeWhile isOpChar).length

def opMatchLen (t : List Char) (i : Nat) : Option Nat :=
  if opRun t i = 0 then none else some (opRun t i)

/-! ### Function-name rule: `def\s+(\w+)\s*\(` -/

/-- The shape of a full match of the function pattern. -/
def fnShape (s : List Char) : Bool :=
  if s.get? 0 = some 'd' ∧ s.get? 1 = some 'e' ∧ s.get? 2 = some 'f' then
    let rest := s.drop 3
    let p1 := rest.span Char.isWhitespace
    let p2 := p1.2.span isWordChar
    let p3 := p2.2.span Char.isWhitespace
    (!p1.1.isEmpty) && (!p2.1.isEmpty) && (p3.2 == ['('])
  else false

/-- Returns (full match length, captured group `(\w+)` length). -/
def fnMatchLen (t : List Char) (i : Nat) : Option (Nat × Nat) :=
  if t.get? i = some 'd' ∧ t.get? (i + 1) = some 'e' ∧ t.get? (i + 2) = some 'f' then
    let rest := t.drop (i + 3)
    let s1 := rest.takeWhile Char.isWhitespace
    let r1 := rest.drop s1.length
    let s2 := r1.takeWhile isWordChar
    let r2 := r1.drop s2.length
    let s3 := r2.takeWhile Char.isWhitespace
    let r3 := r2.drop s3.length
    if 0 < s1.length ∧ 0 < s2.length ∧ r3.head? = some '(' then
      some (3 + s1.length + s2.length + s3.length + 1, s2.length)
    else none
  else none

/-! ### The declarative match relation and the engine model -/

/-- What it means for the substring of `t` at `i` of length `l` to match a
rule's pattern. -/
def ruleMatches : RuleId → List Char → Nat → Nat → Prop
  | .keywordsRule, t, i, l =>
      ∃ k ∈ kwlist, sub t i l = k.toList ∧ l = k.length ∧ i + l ≤ t.length ∧
        boundaryAt t i = true ∧ boundaryAt t (i + l) = true
  | .dqStringRule, t, i, l => i + l ≤ t.length ∧ quoteForm '"' (sub t i l) = true
  | .sqStringRule, t, i, l => i + l ≤ t.length ∧ quoteForm squote (sub t i l) = true
  | .commentRule, t, i, l =>
      1 ≤ l ∧ i + l ≤ t.length ∧ t.get? i = some '#' ∧
        ∀ j, 1 ≤ j → j < l → t.get? (i + j) ≠ some '\n'
  | .numberRule, t, i, l => numMatchesB t i l = true
  | .operatorRule, t, i, l =>
      1 ≤ l ∧ i + l ≤ t.length ∧ (sub t i l).all isOpChar = true
  | .functionRule, t, i, l => i + l ≤ t.length ∧ fnShape (sub t i l) = true

/-- The (match length, captured length) the engine reports at position `i`,
or `none` when the pattern does not match there. -/
def matchInfo (r : RuleId) (t : List Char) (i : Nat) : Option (Nat × Nat) :=
  match r with
  | .keywordsRule => (kwMatchLen t i).map (fun l => (l, l))
  | .dqStringRule => (quoteMatchLen '"' t i).map (fun l => (l, l))
  | .sqStringRule => (quoteMatchLen squote t i).map (fun l => (l, l))
  | .commentRule => (commentMatchLen t i).map (fun l => (l, l))
  | .numberRule => (numMatchLen t i).map (fun l => (l, l))
  | .operatorRule => (opMatchLen t i).map (fun l => (l, l))
  | .functionRule => fnMatchLen t i

/-- Model of `QRegExp.indexIn(text, start)`: the first position at or after `start`
where the pattern matches, with the match data. -/
def indexIn (r : RuleId) (t : List Char) (start : Nat) : Option (Nat × Nat × Nat) :=
  (List.range' start (t.length + 1 - start)).findSome?
    (fun i => (matchInfo r t i).map (fun p => (i, p.1, p.2)))

/-- The `while index >= 0` scan loop of `highlightBlock`, fuelled by the text
length (every iteration advances the scan position by at least one). -/
def scanAux (r : RuleId) (t : List Char) : Nat → Nat → List (Nat × Nat × Nat)
  | 0, _ => []
  | fuel + 1, start =>
    match indexIn r t start with
    | none => []
    | some m => m :: scanAux r t fuel (m.1 + m.2.1)

def scan (r : RuleId) (t : List Char) : List (Nat × Nat × Nat) :=
  scanAux r t (t.length + 1) 0

/-- The `(position, length)` spans passed to `setFormat` for one rule: the
function rule formats `index + 4` for the captured name's length, every other
rule formats the full match. -/
def spans (r : RuleId) (t : List Char) : List (Nat × Nat) :=
  (scan r t).map (fun m =>
    match r with
    | .functionRule => (m.1 + 4, m.2.2)
    | _ => (m.1, m.2.1))

/-- Model of `setFormat(pos, len, fmt)` over a position-indexed format map. -/
def setFormatRange (fmt : Fmt) (pos len : Nat) (m : Nat → Option Fmt) :
    Nat → Option Fmt :=
  fun p => if pos ≤ p ∧ p < pos + len then some fmt else m p

/-- Apply one `(pattern, fmt)` rule: run the scan and issue its `setFormat`
calls in order. -/
def applyRule (t : List Char) (m : Nat → Option Fmt) (rf : RuleId × Fmt) :
    Nat → Option Fmt :=
  (spans rf.1 t).foldl (fun acc s => setFormatRange rf.2 s.1 s.2 acc) m

/-- The rule-application phase of `highlightBlock`: all rules in list order
over an initially format-free line. -/
def applyRules (t : List Char) : Nat → Option Fmt :=
  get_rules.foldl (applyRule t) (fun _ => none)

/-- Whether some span of rule `r` covers position `p`. -/
def coveredBy (r : RuleId) (t : List Char) (p : Nat) : Prop :=
  ∃ sp ∈ spans r t, sp.1 ≤ p ∧ p < sp.1 + sp.2

instance (r : RuleId) (t : List Char) (p : Nat) : Decidable (coveredBy r t p) :=
  List.decidableBEx _ (spans r t)

/-- The format of the last rule in the list covering `p`. -/
def lastCovering (t : List Char) (p : Nat) : Option Fmt :=
  ((get_rules.filter (fun rf => decide (coveredBy rf.1 t p))).getLast?).map Prod.snd

inductive LineFmt
  | colored (f : Fmt)
  | errUnderline
  | warnUnderline
  deriving DecidableEq, Repr

/-- The whole of `highlightBlock` for a line: the rule pass, then the
error/warning overlay `setFormat(0, len(text), …)` keyed by the block's line
number in the recorded maps. -/
def highlightBlock (t : List Char) (lineNumber : Nat)
    (errors warnings : List Nat) : Nat → Option LineFmt :=
  fun p =>
    if lineNumber ∈ errors ∧ p < t.length then some .errUnderline
    else if lineNumber ∉ errors ∧ lineNumber ∈ warnings ∧ p < t.length then
      some .warnUnderline
    else (applyRules t p).map LineFmt.colored

/-! ## Theorems -/

theorem lockstep_empty : Lockstep FoldData.empty := by
  constructor <;> rfl

theorem lockstep_addFoldable (d : FoldData) (s e : Nat) (t : String)
    (h : Lockstep d) : Lockstep (addFoldable d s e t) := by
  obtain ⟨h1, h2⟩ := h
  constructor <;> simp [addFoldable, h1, h2]

theorem lockstep_foldl {β : Type} (g : FoldData → β → FoldData)
    (hg : ∀ d b, Lockstep d → Lockstep (g d b)) :
    ∀ (l : List β) (d : FoldData), Lockstep d → Lockstep (l.foldl g d) := by
  intro l
  induction l with
  | nil => intro d hd; exact hd
  | cons b rest ih => intro d hd; exact ih (g d b) (hg d b hd)

theorem lockstep_recordPopped (cur : Nat) (l : List StackEntry) (d : FoldData)
    (h : Lockstep d) : Lockstep (recordPopped cur l d) := by
  refine lockstep_foldl _ ?_ l d h
  intro d e hd
  by_cases hc : 1 < cur - e.1
  · simpa [hc] using lockstep_addFoldable d e.1 (cur - 1) e.2.2 hd
  · simpa [hc] using hd

theorem popAll_eq (cur ci : Nat) (st : List StackEntry) (d : FoldData)
    (h : StackSorted st) :
    popAll cur ci st d =
      (st.filter (fun e => ¬ ci ≤ e.2.1),
       recordPopped cur (st.filter (fun e => ci ≤ e.2.1)) d) := by
  induction st generalizing d with
  | nil => simp [popAll, recordPopped]
  | cons e rest ih =>
    rcases List.pairwise_cons.mp h with ⟨hrel, hrest⟩
    by_cases hci : ci ≤ e.2.1
    · rw [show popAll cur ci (e :: rest) d =
          popAll cur ci rest
            (if 1 < cur - e.1 then addFoldable d e.1 (cur - 1) e.2.2 else d) from by
            simp [popAll, hci]]
      rw [ih _ hrest]
      simp [List.filter_cons, hci, recordPopped]
    · rw [show popAll cur ci (e :: rest) d = (e :: rest, d) from by simp [popAll, hci]]
      have hall : ∀ x ∈ rest, x.2.1 < ci :=
        fun x hx => lt_trans (hrel x hx) (lt_of_not_le hci)
      have hkeep : (e :: rest).filter (fun e => ¬ ci ≤ e.2.1) = e :: rest := by
        rw [List.filter_eq_self]
        intro a ha
        rcases List.mem_cons.mp ha with rfl | ha
        · simpa using hci
        · simpa using not_le_of_lt (hall a ha)
      have hpop : (e :: rest).filter (fun e => ci ≤ e.2.1) = [] := by
        rw [List.filter_eq_nil_iff]
        intro a ha
        rcases List.mem_cons.mp ha with rfl | ha
        · simpa using hci
        · simpa using not_le_of_lt (hall a ha)
      rw [hkeep, hpop]
      simp [recordPopped]

theorem recordPopped_ranges (cur : Nat) (l : List StackEntry) (d : FoldData) :
    (recordPopped cur l d).fold_ranges =
      d.fold_ranges ++
        l.filterMap (fun e => if 1 < cur - e.1 then some (e.1, cur - 1) else none) := by
  induction l generalizing d with
  | nil => simp [recordPopped]
  | cons e rest ih =>
    by_cases hc : 1 < cur - e.1
    · rw [show recordPopped cur (e :: rest) d =
          recordPopped cur rest (addFoldable d e.1 (cur - 1) e.2.2) from by
            simp [recordPopped, hc]]
      rw [ih]
      simp [addFoldable, hc]
    · rw [show recordPopped cur (e :: rest) d = recordPopped cur rest d from by
        simp [recordPopped, hc]]
      rw [ih]
      simp [hc]

theorem closeFold_ranges (endLine : Nat) (l : List StackEntry) (d : FoldData) :
    (l.foldl (fun d e => if 1 < endLine - e.1 then addFoldable d e.1 endLine e.2.2 else d)
        d).fold_ranges =
      d.fold_ranges ++
        l.filterMap (fun e => if 1 < endLine - e.1 then some (e.1, endLine) else none) := by
  induction l generalizing d with
  | nil => simp
  | cons e rest ih =>
    by_cases hc : 1 < endLine - e.1
    · simp only [List.foldl_cons, if_pos hc, List.filterMap_cons, ih]
      simp [addFoldable, hc]
    · simp only [List.foldl_cons, if_neg hc, List.filterMap_cons, ih]

theorem stackSorted_after_step (ci : Nat) (n : Nat) (t : String)
    (st : List StackEntry) (h : StackSorted st) :
    StackSorted ((n, ci, t) :: st.filter (fun e => ¬ ci ≤ e.2.1)) := by
  refine List.pairwise_cons.mpr ⟨?_, ?_⟩
  · intro x hx
    have := List.of_mem_filter hx
    simpa using lt_of_not_le (by simpa using this)
  · exact h.filter _

theorem detectLoop_spec (doc : List (List Char)) :
    ∀ n st d, StackSorted st →
      (detectLoop doc n st d).1 =
          (List.foldl specStep (st, d.fold_ranges) (doc.enumFrom n)).1 ∧
      (detectLoop doc n st d).2.fold_ranges =
          (List.foldl specStep (st, d.fold_ranges) (doc.enumFrom n)).2 ∧
      StackSorted (detectLoop doc n st d).1 := by
  induction doc with
  | nil =>
    intro n st d h
    refine ⟨rfl, rfl, ?_⟩
    simpa [detectLoop] using h
  | cons line rest ih =>
    intro n st d h
    by_cases ht : pyRstrip line = []
    · have hd : detectLoop (line :: rest) n st d = detectLoop rest (n + 1) st d := by
        simp [detectLoop, ht]
      have hsp : specStep (st, d.fold_ranges) (n, line) = (st, d.fold_ranges) := by
        simp [specStep, ht]
      rw [hd, List.enumFrom, List.foldl_cons, hsp]
      exact ih (n + 1) st d h
    · have hpop := popAll_eq n (indentOf line) st d h
      have hd : detectLoop (line :: rest) n st d =
          detectLoop rest (n + 1)
            (if startsFold (pyRstrip line) then
              (n, indentOf line, blockTypeOf (pyRstrip line)) ::
                st.filter (fun e => ¬ indentOf line ≤ e.2.1)
             else st.filter (fun e => ¬ indentOf line ≤ e.2.1))
            (recordPopped n (st.filter (fun e => indentOf line ≤ e.2.1)) d) := by
        simp only [detectLoop, if_neg ht, hpop]
      have hsp : specStep (st, d.fold_ranges) (n, line) =
          ((if startsFold (pyRstrip line) then
              (n, indentOf line, blockTypeOf (pyRstrip line)) ::
                st.filter (fun e => ¬ indentOf line ≤ e.2.1)
            else st.filter (fun e => ¬ indentOf line ≤ e.2.1)),
           (recordPopped n (st.filter (fun e => indentOf line ≤ e.2.1)) d).fold_ranges) := by
        simp only [specStep, if_neg ht]
        rw [recordPopped_ranges]
      have hsort : StackSorted
          (if startsFold (pyRstrip line) then
            (n, indentOf line, blockTypeOf (pyRstrip line)) ::
              st.filter (fun e => ¬ indentOf line ≤ e.2.1)
           else st.filter (fun e => ¬ indentOf line ≤ e.2.1)) := by
        by_cases hs : startsFold (pyRstrip line)
        · simpa [hs] using stackSorted_after_step (indentOf line) n
            (blockTypeOf (pyRstrip line)) st h
        · simpa [hs] using h.filter _
      rw [hd, List.enumFrom, List.foldl_cons, hsp]
      exact ih (n + 1) _ _ hsort

theorem lockstep_popAll (cur ci : Nat) (st : List StackEntry) (d : FoldData)
    (h : Lockstep d) : Lockstep (popAll cur ci st d).2 := by
  induction st generalizing d with
  | nil => simpa [popAll] using h
  | cons e rest ih =>
    by_cases hci : ci ≤ e.2.1
    · rw [show popAll cur ci (e :: rest) d =
          popAll cur ci rest
            (if 1 < cur - e.1 then addFoldable d e.1 (cur - 1) e.2.2 else d) from by
            simp [popAll, hci]]
      refine ih _ ?_
      by_cases hc : 1 < cur - e.1
      · simpa [hc] using lockstep_addFoldable d e.1 (cur - 1) e.2.2 h
      · simpa [hc] using h
    · rw [show popAll cur ci (e :: rest) d = (e :: rest, d) from by simp [popAll, hci]]
      exact h

theorem lockstep_detectLoop (doc : List (List Char)) :
    ∀ n st d, Lockstep d → Lockstep (detectLoop doc n st d).2 := by
  induction doc with
  | nil => intro n st d h; simpa [detectLoop] using h
  | cons line rest ih =>
    intro n st d h
    by_cases ht : pyRstrip line = []
    · rw [show detectLoop (line :: rest) n st d = detectLoop rest (n + 1) st d from by
        simp [detectLoop, ht]]
      exact ih (n + 1) st d h
    · rw [show detectLoop (line :: rest) n st d =
          detectLoop rest (n + 1)
            (if startsFold (pyRstrip line) then
              (n, indentOf line, blockTypeOf (pyRstrip line)) ::
                (popAll n (indentOf line) st d).1
             else (popAll n (indentOf line) st d).1)
            (popAll n (indentOf line) st d).2 from by
          simp only [detectLoop, if_neg ht]]
      exact ih (n + 1) _ _ (lockstep_popAll n (indentOf line) st d h)

theorem lockstep_closeRemaining (endLine : Nat) (st : List StackEntry) (d : FoldData)
    (h : Lockstep d) : Lockstep (closeRemaining endLine st d) := by
  refine lockstep_foldl _ ?_ st.reverse d h
  intro d e hd
  by_cases hc : 1 < endLine - e.1
  · simpa [hc] using lockstep_addFoldable d e.1 endLine e.2.2 hd
  · simpa [hc] using hd

theorem lockstep_detect (doc : List (List Char)) :
    Lockstep (detect_foldable_lines doc) := by
  unfold detect_foldable_lines
  exact lockstep_closeRemaining _ _ _ (lockstep_detectLoop doc 0 [] FoldData.empty lockstep_empty)

/-- Claim C1: the fold detector computes, in a single top-to-bottom pass with
an indentation stack, exactly the ranges described by the specification:
non-blank lines pop every entry with indentation ≥ their own (recording a
range ending on the previous line when the header is more than one line
above), push exactly on the seven starter prefixes, and surviving entries
are closed at the last line under the same condition. -/
theorem detect_foldable_lines_correct (doc : List (List Char)) :
    (detect_foldable_lines doc).fold_ranges = detect_spec doc ∧
    (detect_foldable_lines doc).foldable_lines = (detect_spec doc).map Prod.fst := by
  have hmain := detectLoop_spec doc 0 [] FoldData.empty (by simp [StackSorted])
  have hr : (detect_foldable_lines doc).fold_ranges = detect_spec doc := by
    unfold detect_foldable_lines detect_spec closeRemaining
    rw [closeFold_ranges]
    rw [hmain.2.1, hmain.1]
    rfl
  refine ⟨hr, ?_⟩
  have hl := (lockstep_detect doc).1
  rw [hl, hr]

theorem popAll_ranges_mem (cur ci : Nat) (st : List StackEntry) (d : FoldData) :
    ∀ r ∈ (popAll cur ci st d).2.fold_ranges,
      r ∈ d.fold_ranges ∨ (r.2 + 1 = cur ∧ r.1 + 2 ≤ cur) := by
  induction st generalizing d with
  | nil => intro r hr; exact Or.inl (by simpa [popAll] using hr)
  | cons e rest ih =>
    intro r hr
    by_cases hci : ci ≤ e.2.1
    · rw [show popAll cur ci (e :: rest) d =
          popAll cur ci rest
            (if 1 < cur - e.1 then addFoldable d e.1 (cur - 1) e.2.2 else d) from by
            simp [popAll, hci]] at hr
      rcases ih _ r hr with hin | hnew
      · by_cases hc : 1 < cur - e.1
        · rw [if_pos hc] at hin
          simp only [addFoldable, List.mem_append, List.mem_singleton] at hin
          rcases hin with hin | rfl
          · exact Or.inl hin
          · exact Or.inr (by omega)
        · rw [if_neg hc] at hin
          exact Or.inl hin
      · exact Or.inr hnew
    · rw [show popAll cur ci (e :: rest) d = (e :: rest, d) from by simp [popAll, hci]] at hr
      exact Or.inl hr

theorem detectLoop_ranges_mem (doc : List (List Char)) :
    ∀ n st d, ∀ r ∈ (detectLoop doc n st d).2.fold_ranges,
      r ∈ d.fold_ranges ∨ (r.1 + 1 ≤ r.2 ∧ r.2 + 2 ≤ n + doc.length) := by
  induction doc with
  | nil => intro n st d r hr; exact Or.inl (by simpa [detectLoop] using hr)
  | cons line rest ih =>
    intro n st d r hr
    by_cases ht : pyRstrip line = []
    · rw [show detectLoop (line :: rest) n st d = detectLoop rest (n + 1) st d from by
        simp [detectLoop, ht]] at hr
      rcases ih (n + 1) st d r hr with hin | hnew
      · exact Or.inl hin
      · exact Or.inr ⟨hnew.1, by simp only [List.length_cons]; omega⟩
    · rw [show detectLoop (line :: rest) n st d =
          detectLoop rest (n + 1)
            (if startsFold (pyRstrip line) then
              (n, indentOf line, blockTypeOf (pyRstrip line)) ::
                (popAll n (indentOf line) st d).1
             else (popAll n (indentOf line) st d).1)
            (popAll n (indentOf line) st d).2 from by
          simp only [detectLoop, if_neg ht]] at hr
      rcases ih (n + 1) _ _ r hr with hin | hnew
      · rcases popAll_ranges_mem n (indentOf line) st d r hin with hd | hmid
        · exact Or.inl hd
        · refine Or.inr ⟨by omega, ?_⟩
          simp only [List.length_cons]
          omega
      · refine Or.inr ⟨hnew.1, ?_⟩
        simp only [List.length_cons]
        omega

theorem closeRemaining_ranges_mem (endLine : Nat) (st : List StackEntry) (d : FoldData) :
    ∀ r ∈ (closeRemaining endLine st d).fold_ranges,
      r ∈ d.fold_ranges ∨ (r.2 = endLine ∧ r.1 + 2 ≤ endLine) := by
  intro r hr
  unfold closeRemaining at hr
  rw [closeFold_ranges] at hr
  rcases List.mem_append.mp hr with hin | hnew
  · exact Or.inl hin
  · rcases List.mem_filterMap.mp hnew with ⟨e, _, he⟩
    by_cases hc : 1 < endLine - e.1
    · rw [if_pos hc] at he
      cases he
      exact Or.inr ⟨rfl, by omega⟩
    · rw [if_neg hc] at he
      cases he

/-- Claim C8: after `detect_foldable_lines`, the three containers have the
same keys in lockstep; every range satisfies `fold_ranges[s] ≥ s + 1`; a range
closed at the document's last line spans more than one line below its header;
a header whose single body line ends the document is not foldable, while the
same shape followed by a dedented line is. -/
theorem detect_foldable_lines_invariants (doc : List (List Char)) :
    (detect_foldable_lines doc).foldable_lines =
        (detect_foldable_lines doc).fold_ranges.map Prod.fst ∧
    (detect_foldable_lines doc).fold_types.map Prod.fst =
        (detect_foldable_lines doc).fold_ranges.map Prod.fst ∧
    (∀ r ∈ (detect_foldable_lines doc).fold_ranges,
        r.1 + 1 ≤ r.2 ∧ (r.2 = doc.length - 1 → r.1 + 2 ≤ r.2)) ∧
    detect_foldable_lines (["if x:", " a"].map String.toList) = FoldData.empty ∧
    detect_foldable_lines (["if x:", " a", "b"].map String.toList) =
      ⟨[0], [(0, 1)], [(0, "other")]⟩ := by
  refine ⟨(lockstep_detect doc).1, (lockstep_detect doc).2, ?_, by decide, by decide⟩
  intro r hr
  unfold detect_foldable_lines at hr
  rcases closeRemaining_ranges_mem (doc.length - 1) _ _ r hr with hin | hclose
  · rcases detectLoop_ranges_mem doc 0 [] FoldData.empty r hin with habs | hmid
    · simp [FoldData.empty] at habs
    · refine ⟨hmid.1, fun hlast => ?_⟩
      omega
  · exact ⟨by omega, fun _ => by omega⟩

/-- Witness for C8 at a concrete document. -/
theorem detect_foldable_lines_invariants_witness :
    (0, 2) ∈ (detect_foldable_lines (["def f():", " x = 1", " y = 2"].map String.toList)).fold_ranges ∧
    (0 : Nat) + 1 ≤ 2 ∧ ((2 : Nat) = 3 - 1 → (0 : Nat) + 2 ≤ 2) :=
  ⟨by decide,
   ((detect_foldable_lines_invariants (["def f():", " x = 1", " y = 2"].map String.toList)).2.2.1
      (0, 2) (by decide))⟩

/-- Claim C2: `toggle_fold(n)` on a key `n` of `fold_ranges` sets the
visibility of exactly the blocks `n+1 .. fold_ranges[n]` (hiding them when `n`
was not folded, showing them when it was), updates `folded_blocks`
accordingly, leaves the visibility of line `n` and of every block outside the
span untouched, and is a no-op on a line that is not a key. -/
theorem toggle_fold_correct (st : ToggleState) (n : Nat) :
    (lookupRange st.fold_ranges n = none → toggle_fold st n = st) ∧
    (∀ e, lookupRange st.fold_ranges n = some e →
      (toggle_fold st n).fold_ranges = st.fold_ranges ∧
      (toggle_fold st n).blockCount = st.blockCount ∧
      (n ∉ st.folded_blocks →
        (toggle_fold st n).folded_blocks = insert n st.folded_blocks ∧
        (∀ m, n + 1 ≤ m → m ≤ e → m < st.blockCount →
          (toggle_fold st n).visible m = false)) ∧
      (n ∈ st.folded_blocks →
        (toggle_fold st n).folded_blocks = st.folded_blocks.erase n ∧
        (∀ m, n + 1 ≤ m → m ≤ e → m < st.blockCount →
          (toggle_fold st n).visible m = true)) ∧
      (∀ m, ¬ (n + 1 ≤ m ∧ m ≤ e ∧ m < st.blockCount) →
        (toggle_fold st n).visible m = st.visible m)) := by
  constructor
  · intro hnone
    simp [toggle_fold, hnone]
  · intro e he
    refine ⟨?_, ?_, ?_, ?_, ?_⟩
    · simp [toggle_fold, he]
    · simp [toggle_fold, he]
    · intro hni
      refine ⟨?_, ?_⟩
      · simp [toggle_fold, he, hni]
      · intro m h1 h2 h3
        simp [toggle_fold, he, hni, h1, h2, h3]
    · intro hin
      have hni : ¬ n ∉ st.folded_blocks := fun h => h hin
      refine ⟨?_, ?_⟩
      · simp [toggle_fold, he, hni]
      · intro m h1 h2 h3
        simp [toggle_fold, he, hni, h1, h2, h3]
    · intro m hm
      simp [toggle_fold, he, hm]

/-- Witness for C2: a concrete editor with a fold range `(1, 3)` over five
blocks, toggled at line 1. -/
theorem toggle_fold_correct_witness :
    (toggle_fold ⟨5, fun _ => true, [(1, 3)], ∅⟩ 1).visible 2 = false ∧
    (toggle_fold ⟨5, fun _ => true, [(1, 3)], ∅⟩ 1).visible 1 = true ∧
    (toggle_fold ⟨5, fun _ => true, [(1, 3)], ∅⟩ 1).visible 4 = true ∧
    (toggle_fold ⟨5, fun _ => true, [(1, 3)], ∅⟩ 1).folded_blocks = insert 1 (∅ : Finset Nat) := by
  have h := toggle_fold_correct ⟨5, fun _ => true, [(1, 3)], ∅⟩ 1
  have h3 := (h.2 3 (by decide)).2.2.1 (by decide)
  refine ⟨h3.2 2 (by decide) (by decide) (by decide), ?_, ?_, h3.1⟩
  · exact (h.2 3 (by decide)).2.2.2.2 1 (by decide)
  · exact (h.2 3 (by decide)).2.2.2.2 4 (by decide)

theorem defaultKey_reading (st : ConsoleState) (k : Key) :
    (defaultKey st k).reading_input = st.reading_input := by
  cases k <;> first | rfl | (unfold defaultKey; split_ifs <;> rfl)

theorem defaultKey_input_pos (st : ConsoleState) (k : Key) :
    (defaultKey st k).input_pos = st.input_pos := by
  cases k <;> first | rfl | (unfold defaultKey; split_ifs <;> rfl)

theorem keyPressEvent_input_pos (st : ConsoleState) (k : Key) :
    (keyPressEvent st k).input_pos = st.input_pos := by
  unfold keyPressEvent
  split_ifs <;> first | rfl | exact defaultKey_input_pos st k

theorem keyPressEvent_ends_read (st : ConsoleState) (k : Key)
    (hr : st.reading_input = true)
    (hend : (keyPressEvent st k).reading_input = false) :
    keyPressEvent st k =
      { st with
        input_buffer := st.text.drop st.input_pos,
        text := insertAt st.text st.cursor '\n',
        cursor := st.cursor + 1,
        reading_input := false,
        readOnly := true } := by
  unfold keyPressEvent at hend ⊢
  have h1 : ¬ st.reading_input = false := by simp [hr]
  rw [if_neg h1] at hend ⊢
  by_cases h2 : k = .backspace ∧ st.cursor ≤ st.input_pos
  · rw [if_pos h2] at hend; rw [hr] at hend; cases hend
  · rw [if_neg h2] at hend ⊢
    by_cases h3 : k = .enter
    · rw [if_pos h3] at hend ⊢
    · rw [if_neg h3] at hend
      by_cases h4 : k = .left ∧ st.cursor ≤ st.input_pos
      · rw [if_pos h4] at hend; rw [hr] at hend; cases hend
      · rw [if_neg h4] at hend
        by_cases h5 : k = .home
        · rw [if_pos h5] at hend; simp [hr] at hend
        · rw [if_neg h5] at hend
          rw [defaultKey_reading, hr] at hend
          cases hend

theorem pumpEvents_not_reading (ks : List Key) (st : ConsoleState)
    (h : st.reading_input = false) : pumpEvents ks st = some st := by
  cases ks <;> simp [pumpEvents, h]

theorem pumpEvents_spec (ks : List Key) :
    ∀ st st', st.reading_input = true → pumpEvents ks st = some st' →
      ∃ stE : ConsoleState, stE.reading_input = true ∧
        stE.input_pos = st.input_pos ∧
        st' = keyPressEvent stE .enter ∧
        st'.reading_input = false ∧ st'.readOnly = true ∧
        st'.input_buffer = stE.text.drop stE.input_pos := by
  induction ks with
  | nil =>
    intro st st' h hp
    simp [pumpEvents, h] at hp
  | cons k ks ih =>
    intro st st' h hp
    rw [show pumpEvents (k :: ks) st = pumpEvents ks (keyPressEvent st k) from by
      simp [pumpEvents, h]] at hp
    by_cases h2 : (keyPressEvent st k).reading_input = true
    · obtain ⟨stE, he1, he2, he3⟩ := ih _ _ h2 hp
      exact ⟨stE, he1, by rw [he2, keyPressEvent_input_pos], he3⟩
    · have h2' : (keyPressEvent st k).reading_input = false := by
        cases hx : (keyPressEvent st k).reading_input
        · rfl
        · exact absurd hx h2
      have hstep := keyPressEvent_ends_read st k h h2'
      rw [pumpEvents_not_reading ks _ h2'] at hp
      cases hp
      refine ⟨st, h, rfl, ?_, h2', ?_, ?_⟩
      · rw [hstep]
        rw [show keyPressEvent st .enter =
            { st with
              input_buffer := st.text.drop st.input_pos,
              text := insertAt st.text st.cursor '\n',
              cursor := st.cursor + 1,
              reading_input := false,
              readOnly := true } from by simp [keyPressEvent, h]]
      · rw [hstep]
      · rw [hstep]

/-- Claim C4: `readline` makes the read-only console writable, records the
end-of-text position in `input_pos`, pumps events until Return ends the read,
and returns exactly the text between the recorded position and the end of the
document at that moment, followed by a newline, with the console read-only
again. -/
theorem readline_correct (st0 : ConsoleState) (events : List Key) :
    (start_input st0).readOnly = false ∧
    (start_input st0).reading_input = true ∧
    (start_input st0).input_pos = st0.text.length ∧
    (∀ out st', readline st0 events = some (out, st') →
      st'.readOnly = true ∧ st'.reading_input = false ∧
      ∃ stE : ConsoleState, stE.reading_input = true ∧
        stE.input_pos = st0.text.length ∧
        st' = keyPressEvent stE .enter ∧
        out = stE.text.drop st0.text.length ++ ['\n']) := by
  refine ⟨rfl, rfl, rfl, ?_⟩
  intro out st' hrl
  unfold readline at hrl
  obtain ⟨st2, hpump, heq⟩ := Option.map_eq_some'.mp hrl
  simp only [Prod.mk.injEq] at heq
  obtain ⟨he, hs⟩ := heq
  obtain ⟨stE, h1, h2, h3, h4, h5, h6⟩ :=
    pumpEvents_spec events (start_input st0) st2 rfl hpump
  subst hs
  refine ⟨h5, h4, stE, h1, ?_, h3, ?_⟩
  · rw [h2]; rfl
  · rw [← he, h6, h2]; rfl

/-- Witness for C4: typing `hi` then Return after the output `out`. -/
theorem readline_correct_witness :
    ∃ stE : ConsoleState, stE.reading_input = true ∧
      stE.input_pos = ("out".toList).length ∧
      (⟨"outhi\n".toList, 6, true, false, 3, "hi".toList⟩ : ConsoleState) =
        keyPressEvent stE .enter ∧
      "hi\n".toList = stE.text.drop ("out".toList).length ++ ['\n'] :=
  ((readline_correct ⟨"out".toList, 0, true, false, 0, []⟩
      [.char 'h', .char 'i', .enter]).2.2.2
    ("hi\n".toList) ⟨"outhi\n".toList, 6, true, false, 3, "hi".toList⟩
    (by decide)).2.2

theorem take_insertAt (l : List Char) (i n : Nat) (c : Char)
    (hn : n ≤ i) (hl : n ≤ l.length) :
    (insertAt l i c).take n = l.take n := by
  unfold insertAt
  rw [List.take_append_of_le_length (by simp [Nat.le_min]; omega)]
  rw [List.take_take, Nat.min_eq_left hn]

theorem take_removeAt (l : List Char) (i n : Nat)
    (hn : n ≤ i) (hl : n ≤ l.length) :
    (removeAt l i).take n = l.take n := by
  unfold removeAt
  rw [List.take_append_of_le_length (by simp [Nat.le_min]; omega)]
  rw [List.take_take, Nat.min_eq_left hn]

theorem le_lineEndOf (t : List Char) (p : Nat) : p ≤ lineEndOf t p :=
  Nat.le_add_right _ _

theorem le_moveDown (t : List Char) (p : Nat) : p ≤ moveDown t p := by
  unfold moveDown
  split_ifs with h
  · exact Nat.le_refl p
  · have h1 := le_lineEndOf t p
    have h2 := le_lineEndOf t (lineEndOf t p + 1)
    exact le_min (by omega) (by omega)

/-- Preservation of the input-protection invariant by one key event other
than Up while a read is pending: `input_pos` is unchanged, the cursor stays
at or after it, and the text before `input_pos` is untouched.  Up is the one
modelled key that can move the cursor before `input_pos`. -/
theorem keyPressEvent_protects (st : ConsoleState) (k : Key)
    (hr : st.reading_input = true) (hup : k ≠ Key.up)
    (hcur : st.input_pos ≤ st.cursor) (hlen : st.input_pos ≤ st.text.length) :
    (keyPressEvent st k).input_pos = st.input_pos ∧
    st.input_pos ≤ (keyPressEvent st k).cursor ∧
    (keyPressEvent st k).text.take st.input_pos = st.text.take st.input_pos := by
  refine ⟨keyPressEvent_input_pos st k, ?_⟩
  unfold keyPressEvent
  rw [if_neg (by simp [hr])]
  by_cases h2 : k = .backspace ∧ st.cursor ≤ st.input_pos
  · rw [if_pos h2]; exact ⟨hcur, rfl⟩
  · rw [if_neg h2]
    by_cases h3 : k = .enter
    · rw [if_pos h3]
      exact ⟨by simpa using Nat.le_succ_of_le hcur,
        take_insertAt st.text st.cursor st.input_pos '\n' hcur hlen⟩
    · rw [if_neg h3]
      by_cases h4 : k = .left ∧ st.cursor ≤ st.input_pos
      · rw [if_pos h4]; exact ⟨hcur, rfl⟩
      · rw [if_neg h4]
        by_cases h5 : k = .home
        · rw [if_pos h5]; exact ⟨Nat.le_refl _, rfl⟩
        · rw [if_neg h5]
          cases k with
          | char c =>
            exact ⟨Nat.le_succ_of_le hcur,
              take_insertAt st.text st.cursor st.input_pos c hcur hlen⟩
          | enter => exact absurd rfl h3
          | home => exact absurd rfl h5
          | backspace =>
            have hgt : st.input_pos < st.cursor := by
              rcases Nat.lt_or_ge st.input_pos st.cursor with h | h
              · exact h
              · exact absurd ⟨rfl, h⟩ h2
            unfold defaultKey
            rw [if_neg (by omega)]
            exact ⟨by simpa using Nat.le_sub_one_of_lt hgt,
              take_removeAt st.text (st.cursor - 1) st.input_pos (by omega) hlen⟩
          | left =>
            have hgt : st.input_pos < st.cursor := by
              rcases Nat.lt_or_ge st.input_pos st.cursor with h | h
              · exact h
              · exact absurd ⟨rfl, h⟩ h4
            exact ⟨by simpa [defaultKey] using Nat.le_sub_one_of_lt hgt, rfl⟩
          | up => exact absurd rfl hup
          | down =>
            exact ⟨Nat.le_trans hcur (le_moveDown st.text st.cursor), rfl⟩
          | right =>
            exact ⟨le_min (Nat.le_succ_of_le hcur) hlen, rfl⟩
          | delete =>
            exact ⟨hcur, take_removeAt st.text st.cursor st.input_pos hcur hlen⟩

theorem pumpEvents_protects (ks : List Key) :
    ∀ st st', Key.up ∉ ks →
      st.input_pos ≤ st.cursor → st.input_pos ≤ st.text.length →
      pumpEvents ks st = some st' →
      st'.input_pos = st.input_pos ∧
      st'.text.take st.input_pos = st.text.take st.input_pos := by
  induction ks with
  | nil =>
    intro st st' _ _ _ hp
    unfold pumpEvents at hp
    split at hp
    · cases hp
    · cases hp; exact ⟨rfl, rfl⟩
  | cons k ks ih =>
    intro st st' hnu hcur hlen hp
    simp only [List.mem_cons, not_or] at hnu
    unfold pumpEvents at hp
    split at hp
    · next hr =>
      have hk := keyPressEvent_protects st k (by simpa using hr)
        (Ne.symm hnu.1) hcur hlen
      have hlen2 : (keyPressEvent st k).input_pos ≤ (keyPressEvent st k).text.length := by
        have := congrArg List.length hk.2.2
        simp only [List.length_take] at this
        rw [hk.1]
        omega
      have := ih (keyPressEvent st k) st' hnu.2 (hk.1 ▸ hk.2.1) hlen2 hp
      rw [hk.1] at this
      exact ⟨this.1, this.2.trans hk.2.2⟩
    · cases hp; exact ⟨rfl, rfl⟩

/-- Claim C9 counterexample, two breaches.  Return does not append the
newline to the end of the document but inserts it at the cursor: after output
`out`, typing `a`, `b`, Left, Return leaves `outa\nb`, not `outab\n`.  And a
key event can modify the text before `input_pos`: the handler forwards Up to
the default handling, which moves the cursor into the output region, and a
forwarded character key then edits output there — after output `a\nb`,
pressing Up, `x`, Return leaves `ax\n` in the first three characters while
`input_pos` stays 3. -/
theorem console_protection_counterexample :
    (readline ⟨"out".toList, 0, true, false, 0, []⟩
        [.char 'a', .char 'b', .left, .enter] =
      some ("ab\n".toList, ⟨"outa\nb".toList, 5, true, false, 3, "ab".toList⟩) ∧
     "outa\nb".toList ≠ "outab".toList ++ ['\n']) ∧
    (readline ⟨"a\nb".toList, 0, true, false, 0, []⟩ [.up, .char 'x', .enter] =
      some ("b\n".toList, ⟨"ax\n\nb".toList, 3, true, false, 3, "b".toList⟩) ∧
     List.take 3 ("ax\n\nb".toList) ≠ "a\nb".toList) := by
  exact ⟨⟨by decide, by decide⟩, ⟨by decide, by decide⟩⟩

/-- Claim C9 (amended): while a read is pending, Backspace and Left at or
before `input_pos` are ignored, Home moves the cursor only to `input_pos`,
and Return inserts the newline at the cursor; but every other key falls
through to the default text-edit handling, which can move the cursor before
`input_pos` (Up) and then edit there, so the text written before
`start_input` is guaranteed unchanged when `readline` returns only for event
sequences that never move the cursor before `input_pos` — in the modelled
alphabet, exactly those without Up. -/
theorem console_protects_output (st0 : ConsoleState) (events : List Key) :
    (∀ st : ConsoleState, st.reading_input = true → st.cursor ≤ st.input_pos →
      keyPressEvent st .backspace = st) ∧
    (∀ st : ConsoleState, st.reading_input = true → st.cursor ≤ st.input_pos →
      keyPressEvent st .left = st) ∧
    (∀ st : ConsoleState, st.reading_input = true →
      (keyPressEvent st .home).cursor = st.input_pos ∧
      (keyPressEvent st .home).text = st.text) ∧
    (∀ st : ConsoleState, st.reading_input = true →
      (keyPressEvent st .enter).text = insertAt st.text st.cursor '\n') ∧
    (∀ out st', Key.up ∉ events → readline st0 events = some (out, st') →
      st'.text.take st0.text.length = st0.text) := by
  refine ⟨?_, ?_, ?_, ?_, ?_⟩
  · intro st hr hc
    unfold keyPressEvent
    rw [if_neg (by simp [hr]), if_pos ⟨rfl, hc⟩]
  · intro st hr hc
    unfold keyPressEvent
    rw [if_neg (by simp [hr]), if_neg (by simp), if_neg (by simp),
      if_pos ⟨rfl, hc⟩]
  · intro st hr
    unfold keyPressEvent
    rw [if_neg (by simp [hr]), if_neg (by simp), if_neg (by simp),
      if_neg (by simp), if_pos rfl]
    exact ⟨rfl, rfl⟩
  · intro st hr
    unfold keyPressEvent
    rw [if_neg (by simp [hr]), if_neg (by simp), if_pos rfl]
  · intro out st' hnu hrl
    unfold readline at hrl
    obtain ⟨st2, hpump, heq⟩ := Option.map_eq_some'.mp hrl
    simp only [Prod.mk.injEq] at heq
    obtain ⟨_, hs⟩ := heq
    rw [← hs]
    have := pumpEvents_protects events (start_input st0) st2 hnu
      (Nat.le_refl _) (by simp [start_input]) hpump
    have htake : st2.text.take (start_input st0).input_pos =
        (start_input st0).text.take (start_input st0).input_pos := this.2
    simpa [start_input, List.take_length] using htake

/-- Witness for the amended C9 at a concrete Up-free read. -/
theorem console_protects_output_witness :
    List.take ("out".toList).length
        ((⟨"outa\nb".toList, 5, true, false, 3, "ab".toList⟩ : ConsoleState).text) =
      "out".toList :=
  (console_protects_output ⟨"out".toList, 0, true, false, 0, []⟩
      [.char 'a', .char 'b', .left, .enter]).2.2.2.2
    ("ab\n".toList) ⟨"outa\nb".toList, 5, true, false, 3, "ab".toList⟩
    (by decide) (by decide)

/-- Claim C3 counterexample: during `exec`, `sys.stderr` is redirected to the
in-memory `captured_output` buffer, not to the console widget, so the claim
that all three streams point at the console is false. -/
theorem interpreter_stderr_counterexample :
    (interpreterRun true true ⟨.host 0, .host 1, .host 2⟩ .ok "").sysDuringExec =
      some ⟨.consoleWidget, .capturedBuffer, .consoleWidget⟩ ∧
    (StreamTarget.capturedBuffer ≠ StreamTarget.consoleWidget) := by
  exact ⟨by decide, by decide⟩

/-- Claim C3 (amended): during `exec`, standard output and standard input
point at the console widget and standard error at an in-memory captured
buffer whose contents are written to the console before `run` returns;
whether the code finishes normally or raises, all three streams are restored
to their previous values, and `finished` is emitted exactly when the
interpreter has not been stopped. -/
theorem interpreter_run_correct (rs rf : Bool) (sys0 : SysState)
    (outcome : ExecOutcome) (capturedText : String) :
    (interpreterRun rs rf sys0 outcome capturedText).sysFinal = sys0 ∧
    (rs = true →
      (interpreterRun rs rf sys0 outcome capturedText).sysDuringExec =
        some ⟨.consoleWidget, .capturedBuffer, .consoleWidget⟩) ∧
    (interpreterRun rs rf sys0 outcome capturedText).finishedEmitted = (rs && rf) ∧
    (rs = true → capturedText ≠ "" →
      (interpreterRun rs rf sys0 outcome capturedText).consoleWrites.getLast? =
        some capturedText) := by
  cases rs with
  | false => refine ⟨rfl, ?_, rfl, ?_⟩ <;> (intro h; cases h)
  | true =>
    refine ⟨rfl, fun _ => rfl, rfl, ?_⟩
    intro _ hcap
    unfold interpreterRun
    rw [if_neg (by simp)]
    simp only [if_neg hcap]
    cases outcome <;> simp

/-- Witness for the amended C3 at a concrete run. -/
theorem interpreter_run_correct_witness :
    (interpreterRun true true ⟨.host 0, .host 1, .host 2⟩ (.exn "boom") "oops").sysFinal =
      ⟨.host 0, .host 1, .host 2⟩ ∧
    (interpreterRun true true ⟨.host 0, .host 1, .host 2⟩ (.exn "boom") "oops").sysDuringExec =
      some ⟨.consoleWidget, .capturedBuffer, .consoleWidget⟩ ∧
    (interpreterRun true true ⟨.host 0, .host 1, .host 2⟩ (.exn "boom") "oops").finishedEmitted =
      (true && true) ∧
    (interpreterRun true true ⟨.host 0, .host 1, .host 2⟩ (.exn "boom") "oops").consoleWrites.getLast? =
      some "oops" := by
  have h := interpreter_run_correct true true ⟨.host 0, .host 1, .host 2⟩ (.exn "boom") "oops"
  exact ⟨h.1, h.2.1 rfl, h.2.2.1, h.2.2.2 rfl (by decide)⟩

/-- Claim C5: when the installer has not been stopped, `run` emits
`finished(True)` exactly when the `pip install` subprocess exits with return
code 0, and `finished(False)` when it exits nonzero or raises. -/
theorem installer_run_correct (pkg : String) :
    (∀ rc out err, (installerRun true true pkg (.exited rc out err)).finishedSignals =
      [rc == 0]) ∧
    (∀ rc out err, rc ≠ 0 →
      (installerRun true true pkg (.exited rc out err)).finishedSignals = [false]) ∧
    (∀ m, (installerRun true true pkg (.raised m)).finishedSignals = [false]) := by
  refine ⟨fun rc out err => rfl, ?_, fun m => rfl⟩
  intro rc out err hrc
  have : (rc == 0) = false := by
    simpa using hrc
  simp [installerRun, this]

/-- Witness for C5 at concrete outcomes. -/
theorem installer_run_correct_witness :
    (installerRun true true "requests" (.exited 0 "done" "")).finishedSignals =
      [((0 : Int) == 0)] ∧
    (installerRun true true "requests" (.exited 1 "" "bad")).finishedSignals = [false] ∧
    (installerRun true true "requests" (.raised "no network")).finishedSignals = [false] := by
  have h := installer_run_correct "requests"
  exact ⟨h.1 0 "done" "", h.2.1 1 "" "bad" (by decide), h.2.2 "no network"⟩

theorem insertEntry_mem (es : List (Nat × String)) (k : Nat) (v : String) :
    (k, v) ∈ insertEntry es k v := by
  unfold insertEntry
  split_ifs with h
  · obtain ⟨p, hp, hpk⟩ := List.any_eq_true.mp h
    refine List.mem_map.mpr ⟨p, hp, ?_⟩
    rw [if_pos hpk]
  · simp

theorem insertEntry_mem_of_ne (es : List (Nat × String)) (k : Nat) (v : String)
    (p : Nat × String) (hp : p ∈ es) (hne : p.1 ≠ k) :
    p ∈ insertEntry es k v := by
  unfold insertEntry
  split_ifs with h
  · refine List.mem_map.mpr ⟨p, hp, ?_⟩
    rw [if_neg (by simpa using hne)]
  · exact List.mem_append_left _ hp

/-- Claim C10: `_check_full_syntax` clears the recorded errors only when the
whole text compiles or is blank; a failed compilation adds an entry for the
failing line while keeping all entries recorded by earlier failed checks, so
after a sequence of edits the errors map — and the displayed count — can
still hold entries for lines whose error no longer exists. -/
theorem check_full_syntax_stale (lastText : String) (errors : List (Nat × String)) :
    ( check_full_syntax lastText .ok errors = []) ∧
    (pyStrip lastText.toList = [] → ∀ res, check_full_syntax lastText res errors = []) ∧
    (∀ n m, pyStrip lastText.toList ≠ [] →
      check_full_syntax lastText (.syntaxError (some n) m) errors =
        insertEntry errors (n - 1) m ∧
      (n - 1, m) ∈ check_full_syntax lastText (.syntaxError (some n) m) errors ∧
      (∀ p ∈ errors, p.1 ≠ n - 1 →
        p ∈ check_full_syntax lastText (.syntaxError (some n) m) errors)) ∧
    ( check_full_syntax "x = (" (.syntaxError (some 6) "unexpected EOF")
        ( check_full_syntax "y = (" (.syntaxError (some 3) "unexpected EOF") []) =
      [(2, "unexpected EOF"), (5, "unexpected EOF")] ∧
     errorCountDisplayed
        ( check_full_syntax "x = (" (.syntaxError (some 6) "unexpected EOF")
          ( check_full_syntax "y = (" (.syntaxError (some 3) "unexpected EOF") [])) = 2) := by
  refine ⟨?_, ?_, ?_, by decide, by decide⟩
  · unfold check_full_syntax
    split_ifs <;> rfl
  · intro hb res
    unfold check_full_syntax
    rw [if_pos hb]
  · intro n m hnb
    have he : check_full_syntax lastText (.syntaxError (some n) m) errors =
        insertEntry errors (n - 1) m := by
      unfold check_full_syntax
      rw [if_neg hnb]
    refine ⟨he, he ▸ insertEntry_mem errors (n - 1) m, ?_⟩
    intro p hp hne
    exact he ▸ insertEntry_mem_of_ne errors (n - 1) m p hp hne

/-- Witness for C10: two successive failed checks leave both entries. -/
theorem check_full_syntax_stale_witness :
    ((5 : Nat), "unexpected EOF") ∈
      check_full_syntax "x = (" (.syntaxError (some 6) "unexpected EOF")
        [(2, "unexpected EOF")] ∧
    ((2 : Nat), "unexpected EOF") ∈
      check_full_syntax "x = (" (.syntaxError (some 6) "unexpected EOF")
        [(2, "unexpected EOF")] :=
  ⟨(( check_full_syntax_stale "x = (" [(2, "unexpected EOF")]).2.2.1 6 "unexpected EOF"
      (by decide)).2.1,
   (( check_full_syntax_stale "x = (" [(2, "unexpected EOF")]).2.2.1 6 "unexpected EOF"
      (by decide)).2.2 (2, "unexpected EOF") (by decide) (by decide)⟩

/-- Claim C7 counterexample: for the response `"```\nprint(1)```"` the odd
segment is `"\nprint(1)"`; its raw first line is empty, so the claim predicts
the code `print(1)`, but the code strips the segment first, treats
`print(1)` as the language tag, and attaches the empty string. -/
theorem display_response_counterexample :
    (display_response_segments "```\nprint(1)```".toList).get? 1 =
      some (.codeBlock []) ∧
    (claim_segments "```\nprint(1)```".toList).get? 1 =
      some (.codeBlock "print(1)".toList) ∧
    display_response_segments "```\nprint(1)```".toList ≠
      claim_segments "```\nprint(1)```".toList := by
  refine ⟨by decide, by decide, by decide⟩

/-- Claim C7 (amended): `display_response` renders even segments as text with
newlines replaced by `<br>` and odd segments as code blocks whose attached
code drops the first line of the stripped segment as a language tag when that
line does not start with a space (joining the remaining lines with newlines),
and otherwise uses the whole raw segment. -/
theorem display_response_amended (response : List Char) :
    display_response_segments response = amended_segments response := by
  unfold display_response_segments amended_segments
  refine List.map_congr_left ?_
  intro ip _
  by_cases h0 : ip.1 % 2 == 0
  · rw [if_pos h0, if_pos h0]
  · rw [if_neg h0, if_neg h0]
    cases hls : pySplitlines (pyStrip ip.2) with
    | nil => rfl
    | cons first rest =>
      cases rest with
      | nil =>
        by_cases hsp : [' '].isPrefixOf first <;> simp [hsp, List.intercalate]
      | cons a b =>
        by_cases hsp : [' '].isPrefixOf first <;> simp [hsp]

theorem takeWhile_get?_pred (p : Char → Bool) (l : List Char) :
    ∀ j, j < (l.takeWhile p).length → ∃ c, l.get? j = some c ∧ p c = true := by
  induction l with
  | nil => intro j hj; simp at hj
  | cons a l ih =>
    intro j hj
    by_cases hp : p a
    · rw [List.takeWhile_cons, if_pos hp] at hj
      cases j with
      | zero => exact ⟨a, rfl, hp⟩
      | succ j =>
        simp only [List.length_cons, Nat.succ_lt_succ_iff] at hj
        exact ih j hj
    · rw [List.takeWhile_cons, if_neg hp] at hj
      simp at hj

theorem takeWhile_stop (p : Char → Bool) (l : List Char) :
    ∀ c, l.get? ((l.takeWhile p).length) = some c → p c = false := by
  induction l with
  | nil => intro c hc; simp at hc
  | cons a l ih =>
    intro c hc
    by_cases hp : p a
    · rw [List.takeWhile_cons, if_pos hp] at hc
      exact ih c hc
    · rw [List.takeWhile_cons, if_neg hp] at hc
      simp only [List.length_nil, List.get?] at hc
      cases hc
      simpa using hp

theorem le_takeWhile_length (p : Char → Bool) (l : List Char) :
    ∀ n, n ≤ l.length →
      (∀ j, j < n → ∃ c, l.get? j = some c ∧ p c = true) →
      n ≤ (l.takeWhile p).length := by
  induction l with
  | nil => intro n hn _; simpa using hn
  | cons a l ih =>
    intro n hn h
    cases n with
    | zero => exact Nat.zero_le _
    | succ n =>
      obtain ⟨c, hc, hpc⟩ := h 0 (Nat.succ_pos n)
      simp only [List.get?] at hc
      cases hc
      rw [List.takeWhile_cons, if_pos hpc]
      simp only [List.length_cons, Nat.succ_le_succ_iff]
      refine ih n (by simpa using hn) ?_
      intro j hj
      exact h (j + 1) (Nat.succ_lt_succ hj)

theorem take_takeWhile_length (p : Char → Bool) (l : List Char) :
    l.take ((l.takeWhile p).length) = l.takeWhile p :=
  (List.prefix_iff_eq_take.mp (List.takeWhile_prefix p)).symm

theorem takeWhile_take_comm (p : Char → Bool) (l : List Char) :
    ∀ n, (l.take n).takeWhile p = (l.takeWhile p).take n := by
  induction l with
  | nil => intro n; simp
  | cons a l ih =>
    intro n
    cases n with
    | zero => simp
    | succ n =>
      rw [List.take_succ_cons, List.takeWhile_cons]
      by_cases hp : p a
      · rw [if_pos hp, List.takeWhile_cons, if_pos hp, List.take_succ_cons, ih]
      · rw [if_neg hp, List.takeWhile_cons, if_neg hp, List.take_nil]

theorem takeWhile_all_append (p : Char → Bool) (A B : List Char)
    (hA : ∀ c ∈ A, p c = true)
    (hB : ∀ c, B.head? = some c → p c = false) :
    (A ++ B).takeWhile p = A := by
  induction A with
  | nil =>
    cases B with
    | nil => rfl
    | cons b B =>
      have := hB b rfl
      simp [List.takeWhile_cons, this]
  | cons a A ih =>
    have ha := hA a (List.mem_cons_self a A)
    rw [List.cons_append, List.takeWhile_cons, if_pos ha,
      ih (fun c hc => hA c (List.mem_cons_of_mem a hc))]

theorem ws_not_word (c : Char) (h : c.isWhitespace = true) : isWordChar c = false := by
  have : c = ' ' ∨ c = '\t' ∨ c = '\r' ∨ c = '\n' := by
    simpa [Char.isWhitespace, or_assoc] using h
  rcases this with rfl | rfl | rfl | rfl <;> decide

/-! ### Operator rule lemmas -/

theorem opRun_matches (t : List Char) (i : Nat) (h : opRun t i ≠ 0) :
    ruleMatches .operatorRule t i (opRun t i) := by
  have hle : opRun t i ≤ (t.drop i).length :=
    (List.takeWhile_prefix _).length_le
  have hitle : i + opRun t i ≤ t.length := by
    rw [List.length_drop] at hle
    rcases Nat.lt_or_ge i t.length with hi | hi
    · omega
    · exfalso
      apply h
      unfold opRun
      rw [List.drop_eq_nil_of_le hi]
      rfl
  refine ⟨Nat.one_le_iff_ne_zero.mpr h, hitle, ?_⟩
  rw [show sub t i (opRun t i) = (t.drop i).takeWhile isOpChar from
    take_takeWhile_length isOpChar (t.drop i)]
  exact List.all_eq_true.mpr (fun c hc => List.mem_takeWhile_imp hc)

theorem opRun_max (t : List Char) (i l' : Nat)
    (h : ruleMatches .operatorRule t i l') : l' ≤ opRun t i := by
  obtain ⟨h1, h2, h3⟩ := h
  refine le_takeWhile_length isOpChar (t.drop i) l' (by rw [List.length_drop]; omega) ?_
  intro j hj
  have hjlen : j < (t.drop i).length := by rw [List.length_drop]; omega
  refine ⟨(t.drop i).get ⟨j, hjlen⟩, List.get?_eq_get hjlen, ?_⟩
  have hsubget : (sub t i l').get? j = some ((t.drop i).get ⟨j, hjlen⟩) := by
    unfold sub
    rw [List.get?_take hj, List.get?_eq_get hjlen]
  exact List.all_eq_true.mp h3 _ (List.get?_mem hsubget)

theorem opMatchLen_longest (t : List Char) (i l : Nat)
    (h : opMatchLen t i = some l) :
    ruleMatches .operatorRule t i l ∧
      ∀ l', ruleMatches .operatorRule t i l' → l' ≤ l := by
  unfold opMatchLen at h
  split_ifs at h with h0
  cases h
  exact ⟨opRun_matches t i h0, fun l' hl' => opRun_max t i l' hl'⟩

theorem opMatchLen_complete (t : List Char) (i : Nat)
    (h : opMatchLen t i = none) : ∀ l, ¬ ruleMatches .operatorRule t i l := by
  intro l hl
  unfold opMatchLen at h
  split_ifs at h with h0
  have := opRun_max t i l hl
  have h1 := hl.1
  omega

/-! ### Comment rule lemmas -/

theorem commentMatchLen_longest (t : List Char) (i l : Nat)
    (h : commentMatchLen t i = some l) :
    ruleMatches .commentRule t i l ∧
      ∀ l', ruleMatches .commentRule t i l' → l' ≤ l := by
  cases hg : t.get? i with
  | none =>
    rw [show commentMatchLen t i = none from by
      unfold commentMatchLen; rw [hg]] at h
    cases h
  | some c =>
    rw [show commentMatchLen t i =
        if c = '#' then some (1 + commentRun t i) else none from by
      unfold commentMatchLen; rw [hg]] at h
    split_ifs at h with hc
    cases h
    subst hc
    have hrun : commentRun t i ≤ (t.drop (i + 1)).length :=
      (List.takeWhile_prefix _).length_le
    have hi : i < t.length := List.get?_eq_some.mp hg |>.choose
    constructor
    · refine ⟨by omega, ?_, hg, ?_⟩
      · rw [List.length_drop] at hrun; omega
      · intro j h1 hj hcon
        have hjr : j - 1 < commentRun t i := by omega
        obtain ⟨d, hd, hpd⟩ := takeWhile_get?_pred (fun c => c != '\n') (t.drop (i + 1)) (j - 1) hjr
        rw [List.get?_drop] at hd
        rw [show i + 1 + (j - 1) = i + j from by omega] at hd
        rw [hcon] at hd
        cases hd
        simp at hpd
    · intro l' hl'
      obtain ⟨h1, h2, _, h4⟩ := hl'
      have : l' - 1 ≤ commentRun t i := by
        refine le_takeWhile_length _ (t.drop (i + 1)) (l' - 1)
          (by rw [List.length_drop]; omega) ?_
        intro j hj
        have hjlen : j < (t.drop (i + 1)).length := by rw [List.length_drop]; omega
        refine ⟨(t.drop (i + 1)).get ⟨j, hjlen⟩, List.get?_eq_get hjlen, ?_⟩
        have hne := h4 (j + 1) (by omega) (by omega)
        have hgj : t.get? (i + (j + 1)) = some ((t.drop (i + 1)).get ⟨j, hjlen⟩) := by
          rw [show i + (j + 1) = i + 1 + j from by omega, ← List.get?_drop,
            List.get?_eq_get hjlen]
        simp only [bne_iff_ne, ne_eq]
        intro hcon
        apply hne
        rw [hgj, hcon]
      omega

theorem commentMatchLen_complete (t : List Char) (i : Nat)
    (h : commentMatchLen t i = none) : ∀ l, ¬ ruleMatches .commentRule t i l := by
  intro l hl
  obtain ⟨_, _, h3, _⟩ := hl
  unfold commentMatchLen at h
  rw [h3] at h
  simp at h

/-! ### Keyword rule lemmas -/

theorem string_toList_length (k : String) : k.toList.length = k.length := rfl

theorem kwlist_words : ∀ k ∈ kwlist, k.toList.all isWordChar = true := by decide

theorem kwlist_ne : ∀ k ∈ kwlist, 1 ≤ k.length := by decide

theorem kwSub_get (t : List Char) (i : Nat) (k : String)
    (hs : sub t i k.length = k.toList) (j : Nat) (hj : j < k.length) :
    t.get? (i + j) = k.toList.get? j := by
  have h1 : (sub t i k.length).get? j = k.toList.get? j := by rw [hs]
  unfold sub at h1
  rw [List.get?_take hj, List.get?_drop] at h1
  exact h1

theorem kwMatches_len_eq (t : List Char) (i : Nat) (k1 k2 : String)
    (h1 : k1 ∈ kwlist) (h2 : k2 ∈ kwlist)
    (hs1 : sub t i k1.length = k1.toList)
    (hb1 : boundaryAt t (i + k1.length) = true)
    (hs2 : sub t i k2.length = k2.toList) :
    ¬ k1.length < k2.length := by
  intro hlt
  have hn1 : 1 ≤ k1.length := kwlist_ne k1 h1
  have hw2 : wordAt t (i + k1.length) = true := by
    have hg := kwSub_get t i k2 hs2 k1.length hlt
    unfold wordAt
    rw [hg]
    have hjl : k1.length < k2.toList.length := by
      rw [string_toList_length]; exact hlt
    rw [List.get?_eq_get hjl]
    exact List.all_eq_true.mp (kwlist_words k2 h2) _ (List.get_mem _ _ _)
  have hw1 : wordAt t (i + k1.length - 1) = true := by
    have hj : k1.length - 1 < k1.length := by omega
    have hg := kwSub_get t i k1 hs1 (k1.length - 1) hj
    unfold wordAt
    rw [show i + k1.length - 1 = i + (k1.length - 1) from by omega, hg]
    have hjl : k1.length - 1 < k1.toList.length := by
      rw [string_toList_length]; omega
    rw [List.get?_eq_get hjl]
    exact List.all_eq_true.mp (kwlist_words k1 h1) _ (List.get_mem _ _ _)
  unfold boundaryAt at hb1
  rw [if_neg (by omega), hw1, hw2] at hb1
  simp at hb1

theorem kwMatchLen_longest (t : List Char) (i l : Nat)
    (h : kwMatchLen t i = some l) :
    ruleMatches .keywordsRule t i l ∧
      ∀ l', ruleMatches .keywordsRule t i l' → l' ≤ l := by
  unfold kwMatchLen at h
  cases hfind : kwlist.find? (kwCheck t i) with
  | none => rw [hfind] at h; cases h
  | some k =>
    rw [hfind] at h
    have hl : l = k.length := by
      simpa using h.symm
    subst hl
    have hchk := List.find?_some hfind
    have hmem := List.mem_of_find?_eq_some hfind
    unfold kwCheck at hchk
    simp only [Bool.and_eq_true] at hchk
    obtain ⟨⟨hpre, hbs⟩, hbe⟩ := hchk
    have hprefix := List.isPrefixOf_iff_prefix.mp hpre
    have hsub : sub t i k.length = k.toList := by
      have := List.prefix_iff_eq_take.mp hprefix
      unfold sub
      rw [string_toList_length] at this
      exact this.symm
    have hlenle : k.length ≤ (t.drop i).length := by
      have := hprefix.length_le
      rwa [string_toList_length] at this
    have hitotal : i + k.length ≤ t.length := by
      rw [List.length_drop] at hlenle
      have := kwlist_ne k hmem
      omega
    refine ⟨⟨k, hmem, hsub, rfl, hitotal, hbs, hbe⟩, ?_⟩
    intro l' hl'
    obtain ⟨k', hmem', hsub', hl'eq, _, _, hbe'⟩ := hl'
    subst hl'eq
    exact Nat.le_of_not_lt (kwMatches_len_eq t i k k' hmem hmem' hsub hbe hsub')

theorem kwMatchLen_complete (t : List Char) (i : Nat)
    (h : kwMatchLen t i = none) : ∀ l, ¬ ruleMatches .keywordsRule t i l := by
  intro l hl
  obtain ⟨k, hmem, hsub, hleq, hlen, hbs, hbe⟩ := hl
  subst hleq
  unfold kwMatchLen at h
  rw [Option.map_eq_none'] at h
  have := List.find?_eq_none.mp h k hmem
  apply this
  unfold kwCheck
  simp only [Bool.and_eq_true]
  refine ⟨⟨?_, hbs⟩, hbe⟩
  apply List.isPrefixOf_iff_prefix.mpr
  apply List.prefix_iff_eq_take.mpr
  rw [string_toList_length]
  exact hsub.symm

/-! ### String rule lemmas -/

theorem quoteFind_sound (q : Char) :
    ∀ (L : Nat) (s : List Char), s.length ≤ L → ∀ n, quoteFind q s = some n →
      1 ≤ n ∧ n ≤ s.length ∧ quoteTail q (s.take n) = true := by
  intro L
  induction L with
  | zero =>
    intro s hs n hf
    have hnil : s = [] := List.length_eq_zero.mp (Nat.le_zero.mp hs)
    subst hnil
    simp [quoteFind] at hf
  | succ L ih =>
    intro s hs n hf
    cases s with
    | nil => simp [quoteFind] at hf
    | cons c cs =>
      unfold quoteFind at hf
      by_cases hcq : c = q
      · rw [if_pos hcq] at hf
        cases hf
        refine ⟨Nat.le_refl 1, by simp, ?_⟩
        rw [List.take_succ_cons, List.take_zero]
        simp [quoteTail, hcq]
      · rw [if_neg hcq] at hf
        by_cases hcb : c = '\\'
        · rw [if_pos hcb] at hf
          cases cs with
          | nil => cases hf
          | cons d cs2 =>
            obtain ⟨m, hm, rfl⟩ := Option.map_eq_some'.mp hf
            have hcs2 : cs2.length ≤ L := by
              simp only [List.length_cons] at hs; omega
            obtain ⟨h1, h2, h3⟩ := ih cs2 hcs2 m hm
            refine ⟨by omega, by simp only [List.length_cons]; omega, ?_⟩
            rw [show m + 2 = (m + 1) + 1 from rfl, List.take_succ_cons,
              List.take_succ_cons]
            unfold quoteTail
            rw [if_neg hcq, if_pos hcb]
            exact h3
        · rw [if_neg hcb] at hf
          obtain ⟨m, hm, rfl⟩ := Option.map_eq_some'.mp hf
          have hcs : cs.length ≤ L := by
            simp only [List.length_cons] at hs; omega
          obtain ⟨h1, h2, h3⟩ := ih cs hcs m hm
          refine ⟨by omega, by simp only [List.length_cons]; omega, ?_⟩
          rw [List.take_succ_cons]
          unfold quoteTail
          rw [if_neg hcq, if_neg hcb]
          exact h3

theorem quoteTail_find (q : Char) :
    ∀ (L : Nat) (s : List Char), s.length ≤ L → ∀ n, n ≤ s.length →
      quoteTail q (s.take n) = true → quoteFind q s = some n := by
  intro L
  induction L with
  | zero =>
    intro s hs n hn ht
    have hnil : s = [] := List.length_eq_zero.mp (Nat.le_zero.mp hs)
    subst hnil
    have hn0 : n = 0 := Nat.le_zero.mp (by simpa using hn)
    subst hn0
    simp [quoteTail] at ht
  | succ L ih =>
    intro s hs n hn ht
    cases s with
    | nil =>
      have hn0 : n = 0 := Nat.le_zero.mp (by simpa using hn)
      subst hn0
      simp [quoteTail] at ht
    | cons c cs =>
      cases n with
      | zero => simp [quoteTail] at ht
      | succ m =>
        rw [List.take_succ_cons] at ht
        unfold quoteTail at ht
        by_cases hcq : c = q
        · rw [if_pos hcq] at ht
          have hm0 : m = 0 := by
            have htake : List.take m cs = [] := List.isEmpty_iff.mp ht
            have hmle : m ≤ cs.length := by
              simp only [List.length_cons] at hn; omega
            rcases List.take_eq_nil_iff.mp htake with h | h
            · exact h
            · subst h; simpa using hmle
          subst hm0
          unfold quoteFind
          rw [if_pos hcq]
        · rw [if_neg hcq] at ht
          by_cases hcb : c = '\\'
          · rw [if_pos hcb] at ht
            cases cs with
            | nil =>
              rw [List.take_nil] at ht
              simp at ht
            | cons d cs2 =>
              cases m with
              | zero => simp at ht
              | succ m2 =>
                rw [List.take_succ_cons] at ht
                have hlen : cs2.length ≤ L := by
                  simp only [List.length_cons] at hs; omega
                have hm2 : m2 ≤ cs2.length := by
                  simp only [List.length_cons] at hn; omega
                have hfind := ih cs2 hlen m2 hm2 ht
                unfold quoteFind
                rw [if_neg hcq, if_pos hcb]
                simp [hfind]
          · rw [if_neg hcb] at ht
            have hfind := ih cs (by simp only [List.length_cons] at hs; omega) m
              (by simp only [List.length_cons] at hn; omega) ht
            unfold quoteFind
            rw [if_neg hcq, if_neg hcb]
            simp [hfind]

theorem drop_eq_cons_of_get? (t : List Char) (i : Nat) (c : Char)
    (hg : t.get? i = some c) : t.drop i = c :: t.drop (i + 1) := by
  have hi : i < t.length := (List.get?_eq_some.mp hg).choose
  have hti : t[i] = c := by
    rw [List.get?_eq_getElem?] at hg
    rw [List.getElem?_eq_getElem hi] at hg
    exact Option.some.inj hg
  rw [List.drop_eq_getElem_cons hi, hti]

theorem quoteMatchLen_longest (q : Char) (t : List Char) (i l : Nat)
    (h : quoteMatchLen q t i = some l) :
    (i + l ≤ t.length ∧ quoteForm q (sub t i l) = true) ∧
      ∀ l', (i + l' ≤ t.length ∧ quoteForm q (sub t i l') = true) → l' ≤ l := by
  cases hg : t.get? i with
  | none =>
    rw [show quoteMatchLen q t i = none from by
      unfold quoteMatchLen; rw [hg]] at h
    cases h
  | some c =>
    by_cases hcq : c = q
    · rw [show quoteMatchLen q t i = (quoteFind q (t.drop (i + 1))).map (· + 1) from by
        unfold quoteMatchLen; rw [hg]; simp [hcq]] at h
      obtain ⟨n, hn, rfl⟩ := Option.map_eq_some'.mp h
      obtain ⟨hn1, hn2, hn3⟩ :=
        quoteFind_sound q (t.drop (i + 1)).length (t.drop (i + 1)) (Nat.le_refl _) n hn
      have hi : i < t.length := (List.get?_eq_some.mp hg).choose
      have hdrop : t.drop i = c :: t.drop (i + 1) := drop_eq_cons_of_get? t i c hg
      have hlen2 : n ≤ t.length - (i + 1) := by
        rwa [List.length_drop] at hn2
      constructor
      · refine ⟨by omega, ?_⟩
        unfold sub
        rw [hdrop, List.take_succ_cons]
        unfold quoteForm
        simp [hcq, hn3]
      · intro l' ⟨hl1', hl2'⟩
        unfold sub at hl2'
        rw [hdrop] at hl2'
        cases l' with
        | zero => simp [quoteForm] at hl2'
        | succ m =>
          rw [List.take_succ_cons] at hl2'
          unfold quoteForm at hl2'
          simp only [Bool.and_eq_true] at hl2'
          have hfind := quoteTail_find q (t.drop (i + 1)).length (t.drop (i + 1))
            (Nat.le_refl _) m (by rw [List.length_drop]; omega) hl2'.2
          rw [hn] at hfind
          have : m = n := Option.some.inj hfind.symm
          omega
    · rw [show quoteMatchLen q t i = none from by
        unfold quoteMatchLen; rw [hg]; simp [hcq]] at h
      cases h

theorem quoteMatchLen_complete (q : Char) (t : List Char) (i : Nat)
    (h : quoteMatchLen q t i = none) :
    ∀ l, ¬ (i + l ≤ t.length ∧ quoteForm q (sub t i l) = true) := by
  intro l ⟨hl1, hl2⟩
  cases hg : t.get? i with
  | none =>
    have hi : t.length ≤ i := by
      by_contra hcon
      rw [List.get?_eq_none] at hg
      omega
    unfold sub at hl2
    rw [List.drop_eq_nil_of_le hi] at hl2
    simp [quoteForm] at hl2
  | some c =>
    have hi : i < t.length := (List.get?_eq_some.mp hg).choose
    have hdrop : t.drop i = c :: t.drop (i + 1) := drop_eq_cons_of_get? t i c hg
    by_cases hcq : c = q
    · rw [show quoteMatchLen q t i = (quoteFind q (t.drop (i + 1))).map (· + 1) from by
        unfold quoteMatchLen; rw [hg]; simp [hcq]] at h
      rw [Option.map_eq_none'] at h
      unfold sub at hl2
      rw [hdrop] at hl2
      cases l with
      | zero => simp [quoteForm] at hl2
      | succ m =>
        rw [List.take_succ_cons] at hl2
        unfold quoteForm at hl2
        simp only [Bool.and_eq_true] at hl2
        have hfind := quoteTail_find q (t.drop (i + 1)).length (t.drop (i + 1))
          (Nat.le_refl _) m (by rw [List.length_drop]; omega) hl2.2
        rw [h] at hfind
        cases hfind
    · unfold sub at hl2
      rw [hdrop] at hl2
      cases l with
      | zero => simp [quoteForm] at hl2
      | succ m =>
        rw [List.take_succ_cons] at hl2
        unfold quoteForm at hl2
        simp [hcq] at hl2

/-! ### Number rule lemmas -/

theorem digit_word (c : Char) (h : c.isDigit = true) : isWordChar c = true := by
  unfold isWordChar
  simp [Char.isAlphanum, h]

theorem wordAt_of_digit (t : List Char) (pos : Nat) (c : Char)
    (hg : t.get? pos = some c) (hd : c.isDigit = true) : wordAt t pos = true := by
  unfold wordAt
  rw [hg]
  exact digit_word c hd

theorem digitRun_pred (t : List Char) (i j : Nat) (hj : j < digitRun t i) :
    ∃ c, t.get? (i + j) = some c ∧ c.isDigit = true := by
  obtain ⟨c, hc, hd⟩ := takeWhile_get?_pred Char.isDigit (t.drop i) j hj
  rw [List.get?_drop] at hc
  exact ⟨c, hc, hd⟩

theorem le_digitRun (t : List Char) (i n : Nat) (hn : n ≤ t.length - i)
    (h : ∀ j, j < n → ∃ c, t.get? (i + j) = some c ∧ c.isDigit = true) :
    n ≤ digitRun t i := by
  refine le_takeWhile_length Char.isDigit (t.drop i) n (by rw [List.length_drop]; exact hn) ?_
  intro j hj
  obtain ⟨c, hc, hd⟩ := h j hj
  exact ⟨c, by rw [List.get?_drop]; exact hc, hd⟩

theorem sub_get? (t : List Char) (i l j : Nat) (hj : j < l) :
    (sub t i l).get? j = t.get? (i + j) := by
  unfold sub
  rw [List.get?_take hj, List.get?_drop]

theorem dropWhile_eq_drop (p : Char → Bool) (l : List Char) :
    l.dropWhile p = l.drop ((l.takeWhile p).length) := by
  induction l with
  | nil => rfl
  | cons a l ih =>
    by_cases hp : p a
    · rw [List.takeWhile_cons, if_pos hp, List.dropWhile_cons, if_pos hp,
        List.length_cons, List.drop_succ_cons, ih]
    · rw [List.takeWhile_cons, if_neg hp, List.dropWhile_cons, if_neg hp,
        List.length_nil, List.drop_zero]

theorem numMatches_mem_cands (t : List Char) (i l : Nat)
    (h : numMatchesB t i l = true) : l ∈ numCands t i := by
  unfold numMatchesB at h
  simp only [Bool.and_eq_true, decide_eq_true_eq] at h
  obtain ⟨⟨⟨hbs, hbe⟩, hlen⟩, hshape⟩ := h
  unfold numShape at hshape
  rw [List.span_eq_take_drop] at hshape
  simp only [Bool.and_eq_true] at hshape
  obtain ⟨hne, hrest⟩ := hshape
  have htwlen : ((sub t i l).takeWhile Char.isDigit).length = min l (digitRun t i) := by
    unfold sub
    rw [takeWhile_take_comm]
    rw [List.length_take]
    rfl
  have hl1 : 1 ≤ min l (digitRun t i) := by
    rcases Nat.eq_zero_or_pos (min l (digitRun t i)) with h0 | h1
    · exfalso
      rw [← htwlen] at h0
      rw [List.length_eq_zero.mp h0] at hne
      simp at hne
    · exact h1
  have hl : 1 ≤ l := by omega
  have hD : 1 ≤ digitRun t i := by omega
  rcases le_or_lt l (digitRun t i) with hle | hgt
  · have hlD : l = digitRun t i := by
      by_contra hne'
      have hlt : l < digitRun t i := by omega
      obtain ⟨c1, hc1, hd1⟩ := digitRun_pred t i l hlt
      obtain ⟨c0, hc0, hd0⟩ := digitRun_pred t i (l - 1) (by omega)
      have hw1 : wordAt t (i + l) = true := wordAt_of_digit _ _ _ hc1 hd1
      have hw0 : wordAt t (i + l - 1) = true := by
        rw [show i + l - 1 = i + (l - 1) from by omega]
        exact wordAt_of_digit _ _ _ hc0 hd0
      unfold boundaryAt at hbe
      rw [if_neg (by omega), hw0, hw1] at hbe
      simp at hbe
    subst hlD
    unfold numCands
    rw [if_neg (by omega)]
    split_ifs with hdot
    · exact List.mem_append_right _ (by simp)
    · simp
  · -- the match extends past the digit run: there is a dot
    have htwD : ((sub t i l).takeWhile Char.isDigit).length = digitRun t i := by
      rw [htwlen]; omega
    have hresteq : (sub t i l).dropWhile Char.isDigit =
        (t.drop (i + digitRun t i)).take (l - digitRun t i) := by
      rw [dropWhile_eq_drop, htwD]
      unfold sub
      rw [List.drop_take, List.drop_drop]
    have hrestlen : ((sub t i l).dropWhile Char.isDigit).length = l - digitRun t i := by
      rw [hresteq, List.length_take, List.length_drop]
      omega
    cases hrc : (sub t i l).dropWhile Char.isDigit with
    | nil => rw [hrc] at hrestlen; simp at hrestlen; omega
    | cons c cs =>
      rw [hrc] at hrest
      simp only [Bool.and_eq_true, beq_iff_eq] at hrest
      obtain ⟨hcdot, hcs⟩ := hrest
      have hhead : t.get? (i + digitRun t i) = some c := by
        have h0 : ((sub t i l).dropWhile Char.isDigit).get? 0 = some c := by
          rw [hrc]; rfl
        rw [hresteq, List.get?_take (by omega), List.get?_drop] at h0
        simpa using h0
      have hcslen : cs.length = l - digitRun t i - 1 := by
        rw [hrc] at hrestlen
        simp only [List.length_cons] at hrestlen
        omega
      have hk : l - digitRun t i - 1 ≤ digitRun t (i + digitRun t i + 1) := by
        refine le_digitRun t (i + digitRun t i + 1) _ (by omega) ?_
        intro j hj
        have hjget : cs.get? j = t.get? (i + digitRun t i + 1 + j) := by
          have h1 : ((sub t i l).dropWhile Char.isDigit).get? (j + 1) = cs.get? j := by
            rw [hrc]; rfl
          rw [hresteq, List.get?_take (by omega), List.get?_drop] at h1
          rw [← h1]
          congr 1
          omega
        have hjlt : j < cs.length := by omega
        refine ⟨cs.get ⟨j, hjlt⟩, ?_, ?_⟩
        · rw [← hjget, List.get?_eq_get hjlt]
        · exact List.all_eq_true.mp hcs _ (List.get_mem _ _ _)
      unfold numCands
      rw [if_neg (by omega), if_pos (by rw [hhead, hcdot])]
      refine List.mem_append_left _ ?_
      refine List.mem_map.mpr ⟨l - digitRun t i - 1, ?_, by omega⟩
      rw [List.mem_reverse, List.mem_range]
      omega

theorem numCands_desc (t : List Char) (i : Nat) :
    List.Pairwise (fun a b => b < a) (numCands t i) := by
  simp only [numCands]
  split_ifs with h0 hdot
  · exact List.Pairwise.nil
  · rw [List.pairwise_append]
    refine ⟨?_, by simp, ?_⟩
    · rw [List.pairwise_map, List.pairwise_reverse]
      exact (List.pairwise_lt_range _).imp (fun hab => by omega)
    · intro a ha b hb
      obtain ⟨k, _, rfl⟩ := List.mem_map.mp ha
      have : b = digitRun t i := by simpa using hb
      omega
  · simp

theorem find?_desc_max (p : Nat → Bool) (l : Nat) :
    ∀ cands : List Nat, List.Pairwise (fun a b => b < a) cands →
      cands.find? p = some l → ∀ x ∈ cands, p x = true → x ≤ l := by
  intro cands
  induction cands with
  | nil => intro _ hfind; cases hfind
  | cons a cs ih =>
    intro hdesc hfind x hx hpx
    obtain ⟨hhead, htail⟩ := List.pairwise_cons.mp hdesc
    by_cases hpa : p a
    · have hla : l = a := by
        rw [List.find?_cons_of_pos _ hpa] at hfind
        exact (Option.some.inj hfind).symm
      subst hla
      rcases List.mem_cons.mp hx with rfl | hx
      · exact Nat.le_refl x
      · exact Nat.le_of_lt (hhead x hx)
    · rw [List.find?_cons_of_neg _ hpa] at hfind
      rcases List.mem_cons.mp hx with rfl | hx
      · exact absurd hpx hpa
      · exact ih htail hfind x hx hpx

theorem numMatchLen_longest (t : List Char) (i l : Nat)
    (h : numMatchLen t i = some l) :
    ruleMatches .numberRule t i l ∧
      ∀ l', ruleMatches .numberRule t i l' → l' ≤ l := by
  refine ⟨List.find?_some h, ?_⟩
  intro l' hl'
  exact find?_desc_max (numMatchesB t i) l (numCands t i) (numCands_desc t i) h l'
    (numMatches_mem_cands t i l' hl') hl'

theorem numMatchLen_complete (t : List Char) (i : Nat)
    (h : numMatchLen t i = none) : ∀ l, ¬ ruleMatches .numberRule t i l := by
  intro l hl
  exact absurd hl (List.find?_eq_none.mp h l (numMatches_mem_cands t i l hl))

/-! ### Function-name rule lemmas -/

theorem word_not_ws (c : Char) (h : isWordChar c = true) : c.isWhitespace = false := by
  cases hw : c.isWhitespace
  · rfl
  · rw [ws_not_word c hw] at h; cases h

theorem sub_length (t : List Char) (i l : Nat) (h : i + l ≤ t.length) :
    (sub t i l).length = l := by
  unfold sub
  rw [List.length_take, List.length_drop]
  omega

theorem fn_decomp (rest A B C tail : List Char)
    (hrest : rest = A ++ (B ++ (C ++ ('(' :: tail))))
    (hA : ∀ c ∈ A, c.isWhitespace = true)
    (hB : ∀ c ∈ B, isWordChar c = true)
    (hC : ∀ c ∈ C, c.isWhitespace = true)
    (hBne : B ≠ []) :
    rest.takeWhile Char.isWhitespace = A ∧
    rest.dropWhile Char.isWhitespace = B ++ (C ++ ('(' :: tail)) ∧
    (B ++ (C ++ ('(' :: tail))).takeWhile isWordChar = B ∧
    (B ++ (C ++ ('(' :: tail))).dropWhile isWordChar = C ++ ('(' :: tail) ∧
    (C ++ ('(' :: tail)).takeWhile Char.isWhitespace = C ∧
    (C ++ ('(' :: tail)).dropWhile Char.isWhitespace = '(' :: tail := by
  have hBhead : ∀ c, (B ++ (C ++ ('(' :: tail))).head? = some c → c.isWhitespace = false := by
    intro c hc
    cases B with
    | nil => exact absurd rfl hBne
    | cons b B' =>
      rw [List.cons_append, List.head?_cons] at hc
      have hbc : b = c := Option.some.inj hc
      subst hbc
      exact word_not_ws b (hB b (List.mem_cons_self b B'))
  have hChead : ∀ c, (C ++ ('(' :: tail)).head? = some c → isWordChar c = false := by
    intro c hc
    cases C with
    | nil =>
      rw [List.nil_append, List.head?_cons] at hc
      have hpc : '(' = c := Option.some.inj hc
      subst hpc
      decide
    | cons d C' =>
      rw [List.cons_append, List.head?_cons] at hc
      have hdc : d = c := Option.some.inj hc
      subst hdc
      exact ws_not_word d (hC d (List.mem_cons_self d C'))
  have hPhead : ∀ c, (('(' : Char) :: tail).head? = some c → c.isWhitespace = false := by
    intro c hc
    rw [List.head?_cons] at hc
    have hpc : '(' = c := Option.some.inj hc
    subst hpc
    decide
  have h1 : rest.takeWhile Char.isWhitespace = A := by
    rw [hrest]
    exact takeWhile_all_append Char.isWhitespace A _ hA hBhead
  have h2 : rest.dropWhile Char.isWhitespace = B ++ (C ++ ('(' :: tail)) := by
    rw [dropWhile_eq_drop, h1, hrest, List.drop_left]
  have h3 : (B ++ (C ++ ('(' :: tail))).takeWhile isWordChar = B :=
    takeWhile_all_append isWordChar B _ hB hChead
  have h4 : (B ++ (C ++ ('(' :: tail))).dropWhile isWordChar = C ++ ('(' :: tail) := by
    rw [dropWhile_eq_drop, h3, List.drop_left]
  have h5 : (C ++ ('(' :: tail)).takeWhile Char.isWhitespace = C :=
    takeWhile_all_append Char.isWhitespace C _ hC hPhead
  have h6 : (C ++ ('(' :: tail)).dropWhile Char.isWhitespace = '(' :: tail := by
    rw [dropWhile_eq_drop, h5, List.drop_left]
  exact ⟨h1, h2, h3, h4, h5, h6⟩

theorem fnMatchLen_formula (t : List Char) (i : Nat) (rest A B C tail : List Char)
    (hdrop : t.drop i = 'd' :: 'e' :: 'f' :: rest)
    (hrest : rest = A ++ (B ++ (C ++ ('(' :: tail))))
    (hA : ∀ c ∈ A, c.isWhitespace = true) (hAne : A ≠ [])
    (hB : ∀ c ∈ B, isWordChar c = true) (hBne : B ≠ [])
    (hC : ∀ c ∈ C, c.isWhitespace = true) :
    fnMatchLen t i = some (3 + A.length + B.length + C.length + 1, B.length) := by
  obtain ⟨h1, h2, h3, h4, h5, h6⟩ := fn_decomp rest A B C tail hrest hA hB hC hBne
  have h2' : rest.drop A.length = B ++ (C ++ ('(' :: tail)) := by
    rw [hrest]; exact List.drop_left _ _
  have h4' : (B ++ (C ++ ('(' :: tail))).drop B.length = C ++ ('(' :: tail) :=
    List.drop_left _ _
  have h6' : (C ++ ('(' :: tail)).drop C.length = '(' :: tail :=
    List.drop_left _ _
  have hg0 : t.get? i = some 'd' := by
    have := congrArg (fun u => List.get? u 0) hdrop
    simpa [List.get?_drop] using this
  have hg1 : t.get? (i + 1) = some 'e' := by
    have := congrArg (fun u => List.get? u 1) hdrop
    simpa [List.get?_drop] using this
  have hg2 : t.get? (i + 2) = some 'f' := by
    have := congrArg (fun u => List.get? u 2) hdrop
    simpa [List.get?_drop] using this
  have hrest3 : t.drop (i + 3) = rest := by
    rw [← List.drop_drop, hdrop]
    rfl
  unfold fnMatchLen
  rw [if_pos ⟨hg0, hg1, hg2⟩, hrest3]
  simp only [h1, h2', h3, h4', h5, h6', List.head?_cons]
  rw [if_pos ⟨List.length_pos.mpr hAne, List.length_pos.mpr hBne, by trivial⟩]

theorem fnShape_formula (A B C : List Char)
    (hA : ∀ c ∈ A, c.isWhitespace = true) (hAne : A ≠ [])
    (hB : ∀ c ∈ B, isWordChar c = true) (hBne : B ≠ [])
    (hC : ∀ c ∈ C, c.isWhitespace = true) :
    fnShape ('d' :: 'e' :: 'f' :: (A ++ (B ++ (C ++ ['('])))) = true := by
  obtain ⟨h1, h2, h3, h4, h5, h6⟩ := fn_decomp (A ++ (B ++ (C ++ ('(' :: []))))
    A B C [] rfl hA hB hC hBne
  unfold fnShape
  rw [if_pos ⟨rfl, rfl, rfl⟩]
  simp only [List.span_eq_take_drop, List.drop_succ_cons, List.drop_zero]
  rw [h2, h4, h6, h1, h3]
  simp [List.isEmpty_iff, hAne, hBne]

theorem take_takeWhile_append_drop (p : Char → Bool) (l : List Char) :
    l = l.takeWhile p ++ l.drop ((l.takeWhile p).length) := by
  conv_lhs => rw [← List.take_append_drop ((l.takeWhile p).length) l]
  rw [take_takeWhile_length]

theorem fnMatchLen_sound (t : List Char) (i l cap : Nat)
    (h : fnMatchLen t i = some (l, cap)) :
    i + l ≤ t.length ∧ fnShape (sub t i l) = true := by
  unfold fnMatchLen at h
  by_cases hg : t.get? i = some 'd' ∧ t.get? (i + 1) = some 'e' ∧
      t.get? (i + 2) = some 'f'
  swap
  · rw [if_neg hg] at h; cases h
  rw [if_pos hg] at h
  obtain ⟨hg0, hg1, hg2⟩ := hg
  dsimp only at h
  split_ifs at h with hcond
  simp only [Option.some.injEq, Prod.mk.injEq] at h
  obtain ⟨hl, hcap⟩ := h
  obtain ⟨hc1, hc2, hc3⟩ := hcond
  have hdrop3 : t.drop i = 'd' :: 'e' :: 'f' :: t.drop (i + 3) := by
    rw [drop_eq_cons_of_get? t i 'd' hg0, drop_eq_cons_of_get? t (i + 1) 'e' hg1,
      drop_eq_cons_of_get? t (i + 2) 'f' hg2]
  set rest := t.drop (i + 3) with hrestdef
  set A := rest.takeWhile Char.isWhitespace with hAdef
  set r1 := rest.drop A.length with hr1def
  set B := r1.takeWhile isWordChar with hBdef
  set r2 := r1.drop B.length with hr2def
  set C := r2.takeWhile Char.isWhitespace with hCdef
  set Z := r2.drop C.length with hZdef
  have hZcons : ∃ tail, Z = '(' :: tail := by
    cases hz : Z with
    | nil => rw [hz] at hc3; cases hc3
    | cons z zs =>
      rw [hz, List.head?_cons] at hc3
      have : z = '(' := Option.some.inj hc3
      exact ⟨zs, by rw [this]⟩
  obtain ⟨tail, htail⟩ := hZcons
  have hrest1 : rest = A ++ r1 := by
    rw [hAdef, hr1def, hAdef]
    exact take_takeWhile_append_drop Char.isWhitespace rest
  have hrest2 : r1 = B ++ r2 := by
    rw [hBdef, hr2def, hBdef]
    exact take_takeWhile_append_drop isWordChar r1
  have hrest3 : r2 = C ++ Z := by
    rw [hCdef, hZdef, hCdef]
    exact take_takeWhile_append_drop Char.isWhitespace r2
  have hresteq : rest = A ++ (B ++ (C ++ ('(' :: tail))) := by
    rw [hrest1, hrest2, hrest3, htail]
  have hA : ∀ c ∈ A, c.isWhitespace = true := fun c hc => List.mem_takeWhile_imp hc
  have hB : ∀ c ∈ B, isWordChar c = true := fun c hc => List.mem_takeWhile_imp hc
  have hC : ∀ c ∈ C, c.isWhitespace = true := fun c hc => List.mem_takeWhile_imp hc
  have hAne : A ≠ [] := List.ne_nil_of_length_pos hc1
  have hBne : B ≠ [] := List.ne_nil_of_length_pos hc2
  have hilen : i < t.length := by
    by_contra hcon
    rw [List.get?_eq_none.mpr (by omega)] at hg0
    cases hg0
  have hdlen : rest.length = A.length + B.length + C.length + 1 + tail.length := by
    rw [hresteq]
    simp [List.length_append]
    omega
  have hrlen : (t.drop i).length = 3 + rest.length := by
    rw [hdrop3]
    simp only [List.length_cons]
    omega
  have hitotal : i + l ≤ t.length := by
    rw [List.length_drop] at hrlen
    omega
  refine ⟨hitotal, ?_⟩
  have htk : rest.take (A.length + (B.length + (C.length + 1))) =
      A ++ (B ++ (C ++ ['('])) := by
    rw [hresteq, List.take_append, List.take_append, List.take_append]
    rfl
  have hsub : sub t i l = 'd' :: 'e' :: 'f' :: (A ++ (B ++ (C ++ ['(']))) := by
    unfold sub
    rw [hdrop3]
    rw [show l = A.length + (B.length + (C.length + 1)) + 3 from by omega]
    rw [show List.take (A.length + (B.length + (C.length + 1)) + 3)
        ('d' :: 'e' :: 'f' :: rest) =
        'd' :: 'e' :: 'f' :: rest.take (A.length + (B.length + (C.length + 1)))
      from rfl]
    rw [htk]
  rw [hsub]
  exact fnShape_formula A B C hA hAne hB hBne hC

theorem fnShape_some (t : List Char) (i l : Nat)
    (hlen : i + l ≤ t.length) (hs : fnShape (sub t i l) = true) :
    ∃ cap, fnMatchLen t i = some (l, cap) := by
  unfold fnShape at hs
  by_cases hg : (sub t i l).get? 0 = some 'd' ∧ (sub t i l).get? 1 = some 'e' ∧
      (sub t i l).get? 2 = some 'f'
  swap
  · rw [if_neg hg] at hs; cases hs
  rw [if_pos hg] at hs
  obtain ⟨hg0, hg1, hg2⟩ := hg
  dsimp only at hs
  simp only [List.span_eq_take_drop, Bool.and_eq_true, beq_iff_eq] at hs
  obtain ⟨⟨h1, h2⟩, h3⟩ := hs
  set s := sub t i l with hsdef
  set srest := s.drop 3 with hsrestdef
  set A := srest.takeWhile Char.isWhitespace with hAdef
  set r1 := srest.dropWhile Char.isWhitespace with hr1def
  set B := r1.takeWhile isWordChar with hBdef
  set r2 := r1.dropWhile isWordChar with hr2def
  set C := r2.takeWhile Char.isWhitespace with hCdef
  have hAne : A ≠ [] := by
    intro hnil
    rw [hnil] at h1
    simp at h1
  have hBne : B ≠ [] := by
    intro hnil
    rw [hnil] at h2
    simp at h2
  have hZ : r2.dropWhile Char.isWhitespace = ['('] := h3
  have hsrest1 : srest = A ++ r1 := by
    rw [hAdef, hr1def]
    exact (List.takeWhile_append_dropWhile Char.isWhitespace srest).symm
  have hsrest2 : r1 = B ++ r2 := by
    rw [hBdef, hr2def]
    exact (List.takeWhile_append_dropWhile isWordChar r1).symm
  have hsrest3 : r2 = C ++ ['('] := by
    conv_lhs => rw [← List.takeWhile_append_dropWhile Char.isWhitespace r2]
    rw [hZ, hCdef]
  have hsrest : srest = A ++ (B ++ (C ++ ['('])) := by
    rw [hsrest1, hsrest2, hsrest3]
  have hA : ∀ c ∈ A, c.isWhitespace = true := fun c hc => List.mem_takeWhile_imp hc
  have hB : ∀ c ∈ B, isWordChar c = true := fun c hc => List.mem_takeWhile_imp hc
  have hC : ∀ c ∈ C, c.isWhitespace = true := fun c hc => List.mem_takeWhile_imp hc
  have hscons : s = 'd' :: 'e' :: 'f' :: srest := by
    calc s = s.drop 0 := (List.drop_zero s).symm
    _ = 'd' :: s.drop 1 := drop_eq_cons_of_get? s 0 'd' hg0
    _ = 'd' :: 'e' :: s.drop 2 := by rw [drop_eq_cons_of_get? s 1 'e' hg1]
    _ = 'd' :: 'e' :: 'f' :: s.drop 3 := by rw [drop_eq_cons_of_get? s 2 'f' hg2]
  have hsplit : t.drop i = s ++ t.drop (i + l) := by
    calc t.drop i = (t.drop i).take l ++ (t.drop i).drop l :=
      (List.take_append_drop l (t.drop i)).symm
    _ = s ++ t.drop (i + l) := by rw [List.drop_drop]; rfl
  have hdropfull : t.drop i =
      'd' :: 'e' :: 'f' :: (srest ++ t.drop (i + l)) := by
    rw [hsplit, hscons]
    rfl
  have hrest' : srest ++ t.drop (i + l) =
      A ++ (B ++ (C ++ ('(' :: t.drop (i + l)))) := by
    rw [hsrest]
    simp [List.append_assoc]
  have hform := fnMatchLen_formula t i (srest ++ t.drop (i + l)) A B C
    (t.drop (i + l)) hdropfull hrest' hA hAne hB hBne hC
  have hslen : s.length = l := sub_length t i l hlen
  have hsrestlen : srest.length = A.length + B.length + C.length + 1 := by
    rw [hsrest]
    simp [List.length_append]
    omega
  have hleq : l = 3 + A.length + B.length + C.length + 1 := by
    rw [hscons] at hslen
    simp only [List.length_cons] at hslen
    omega
  refine ⟨B.length, ?_⟩
  rw [hform, ← hleq]

theorem fnMatchLen_longest (t : List Char) (i l cap : Nat)
    (h : fnMatchLen t i = some (l, cap)) :
    ruleMatches .functionRule t i l ∧
      ∀ l', ruleMatches .functionRule t i l' → l' ≤ l := by
  have hm := fnMatchLen_sound t i l cap h
  refine ⟨hm, ?_⟩
  intro l' hl'
  obtain ⟨cap', hc'⟩ := fnShape_some t i l' hl'.1 hl'.2
  rw [h] at hc'
  simp only [Option.some.injEq, Prod.mk.injEq] at hc'
  omega

theorem fnMatchLen_complete (t : List Char) (i : Nat)
    (h : fnMatchLen t i = none) : ∀ l, ¬ ruleMatches .functionRule t i l := by
  intro l hl
  obtain ⟨cap, hc⟩ := fnShape_some t i l hl.1 hl.2
  rw [h] at hc
  cases hc

/-! ### The longest-match property, uniformly over the seven rules -/

theorem matchInfo_longest (r : RuleId) (t : List Char) (i l cap : Nat)
    (h : matchInfo r t i = some (l, cap)) :
    ruleMatches r t i l ∧ ∀ l', ruleMatches r t i l' → l' ≤ l := by
  cases r with
  | keywordsRule =>
    simp only [matchInfo] at h
    obtain ⟨l0, hl0, heq⟩ := Option.map_eq_some'.mp h
    simp only [Prod.mk.injEq] at heq
    obtain ⟨h1, _⟩ := heq
    subst h1
    exact kwMatchLen_longest t i l0 hl0
  | dqStringRule =>
    simp only [matchInfo] at h
    obtain ⟨l0, hl0, heq⟩ := Option.map_eq_some'.mp h
    simp only [Prod.mk.injEq] at heq
    obtain ⟨h1, _⟩ := heq
    subst h1
    exact quoteMatchLen_longest '"' t i l0 hl0
  | sqStringRule =>
    simp only [matchInfo] at h
    obtain ⟨l0, hl0, heq⟩ := Option.map_eq_some'.mp h
    simp only [Prod.mk.injEq] at heq
    obtain ⟨h1, _⟩ := heq
    subst h1
    exact quoteMatchLen_longest squote t i l0 hl0
  | commentRule =>
    simp only [matchInfo] at h
    obtain ⟨l0, hl0, heq⟩ := Option.map_eq_some'.mp h
    simp only [Prod.mk.injEq] at heq
    obtain ⟨h1, _⟩ := heq
    subst h1
    exact commentMatchLen_longest t i l0 hl0
  | numberRule =>
    simp only [matchInfo] at h
    obtain ⟨l0, hl0, heq⟩ := Option.map_eq_some'.mp h
    simp only [Prod.mk.injEq] at heq
    obtain ⟨h1, _⟩ := heq
    subst h1
    exact numMatchLen_longest t i l0 hl0
  | operatorRule =>
    simp only [matchInfo] at h
    obtain ⟨l0, hl0, heq⟩ := Option.map_eq_some'.mp h
    simp only [Prod.mk.injEq] at heq
    obtain ⟨h1, _⟩ := heq
    subst h1
    exact opMatchLen_longest t i l0 hl0
  | functionRule =>
    exact fnMatchLen_longest t i l cap h

theorem matchInfo_complete (r : RuleId) (t : List Char) (i : Nat)
    (h : matchInfo r t i = none) : ∀ l, ¬ ruleMatches r t i l := by
  cases r with
  | keywordsRule =>
    simp only [matchInfo, Option.map_eq_none'] at h
    exact kwMatchLen_complete t i h
  | dqStringRule =>
    simp only [matchInfo, Option.map_eq_none'] at h
    exact quoteMatchLen_complete '"' t i h
  | sqStringRule =>
    simp only [matchInfo, Option.map_eq_none'] at h
    exact quoteMatchLen_complete squote t i h
  | commentRule =>
    simp only [matchInfo, Option.map_eq_none'] at h
    exact commentMatchLen_complete t i h
  | numberRule =>
    simp only [matchInfo, Option.map_eq_none'] at h
    exact numMatchLen_complete t i h
  | operatorRule =>
    simp only [matchInfo, Option.map_eq_none'] at h
    exact opMatchLen_complete t i h
  | functionRule =>
    exact fnMatchLen_complete t i h

/-! ### Overwrite semantics of the format map -/

theorem foldl_setFormatRange_eq (fmt : Fmt) (p : Nat) :
    ∀ (L : List (Nat × Nat)) (m : Nat → Option Fmt),
      (L.foldl (fun acc s => setFormatRange fmt s.1 s.2 acc) m) p =
        if ∃ sp ∈ L, sp.1 ≤ p ∧ p < sp.1 + sp.2 then some fmt else m p := by
  intro L
  induction L with
  | nil =>
    intro m
    simp
  | cons sp L ih =>
    intro m
    rw [List.foldl_cons, ih]
    by_cases hL : ∃ x ∈ L, x.1 ≤ p ∧ p < x.1 + x.2
    · rw [if_pos hL]
      obtain ⟨x, hx, hc⟩ := hL
      rw [if_pos ⟨x, List.mem_cons_of_mem sp hx, hc⟩]
    · rw [if_neg hL]
      unfold setFormatRange
      by_cases hs : sp.1 ≤ p ∧ p < sp.1 + sp.2
      · rw [if_pos hs, if_pos ⟨sp, List.mem_cons_self sp L, hs⟩]
      · rw [if_neg hs, if_neg ?_]
        intro ⟨x, hx, hc⟩
        rcases List.mem_cons.mp hx with rfl | hx
        · exact hs hc
        · exact hL ⟨x, hx, hc⟩

theorem applyRule_eq (t : List Char) (rf : RuleId × Fmt) (p : Nat)
    (m : Nat → Option Fmt) :
    applyRule t m rf p = if coveredBy rf.1 t p then some rf.2 else m p := by
  unfold applyRule
  rw [foldl_setFormatRange_eq]
  rfl

theorem foldl_applyRule_eq (t : List Char) (p : Nat) :
    ∀ (R : List (RuleId × Fmt)) (m : Nat → Option Fmt),
      (R.foldl (applyRule t) m) p =
        match (R.filter (fun rf => decide (coveredBy rf.1 t p))).getLast? with
        | some rf => some rf.2
        | none => m p := by
  intro R
  induction R with
  | nil => intro m; rfl
  | cons rf R ih =>
    intro m
    rw [List.foldl_cons, ih]
    rw [List.filter_cons]
    by_cases hc : coveredBy rf.1 t p
    · rw [if_pos (by simpa using hc)]
      cases hL : R.filter (fun rf => decide (coveredBy rf.1 t p)) with
      | nil =>
        simp only [List.getLast?_nil, List.getLast?_singleton]
        rw [applyRule_eq, if_pos hc]
      | cons g L' =>
        have hne : (g :: L') ≠ [] := by simp
        obtain ⟨x, hx⟩ : ∃ x, (g :: L').getLast? = some x := by
          cases hgl : (g :: L').getLast? with
          | none => exact absurd (List.getLast?_eq_none_iff.mp hgl) hne
          | some x => exact ⟨x, rfl⟩
        rw [List.getLast?_cons_cons, hx]
    · rw [if_neg (by simpa using hc)]
      cases hL : R.filter (fun rf => decide (coveredBy rf.1 t p)) with
      | nil =>
        simp only [List.getLast?_nil]
        rw [applyRule_eq, if_neg hc]
      | cons g L' =>
        rfl

theorem applyRules_eq_lastCovering (t : List Char) (p : Nat) :
    applyRules t p = lastCovering t p := by
  unfold applyRules lastCovering
  rw [foldl_applyRule_eq]
  cases h : (get_rules.filter (fun rf => decide (coveredBy rf.1 t p))).getLast? with
  | none => rfl
  | some g => rfl

/-! ### Statelessness of the rule pass -/

theorem highlightBlock_stateless (t : List Char) (n : Nat)
    (errors warnings : List Nat) (he : n ∉ errors) (hw : n ∉ warnings) (p : Nat) :
    highlightBlock t n errors warnings p = (applyRules t p).map LineFmt.colored := by
  unfold highlightBlock
  rw [if_neg (fun hcon => he hcon.1), if_neg (fun hcon => hw hcon.2.1)]

/-- Claim C6: the highlighter applies the fixed rule list in the source
order (keywords, double-quoted strings, single-quoted strings, comments,
numbers, operators, function names); at each position where the engine
matches, the reported length is a match of the rule's pattern and no longer
match exists there (and where it reports none, no match exists); the
rule-pass formatting of a line depends only on the line's own text, the
cross-line error/warning state affecting only the underline overlay; and a
position's final format is that of the last rule in the list covering it. -/
theorem highlighter_correct (t : List Char) :
    get_rules.map Prod.fst =
      [RuleId.keywordsRule, RuleId.dqStringRule, RuleId.sqStringRule,
       RuleId.commentRule, RuleId.numberRule, RuleId.operatorRule,
       RuleId.functionRule] ∧
    (∀ r i l cap, matchInfo r t i = some (l, cap) →
      ruleMatches r t i l ∧ ∀ l', ruleMatches r t i l' → l' ≤ l) ∧
    (∀ r i, matchInfo r t i = none → ∀ l, ¬ ruleMatches r t i l) ∧
    (∀ n errors warnings p, n ∉ errors → n ∉ warnings →
      highlightBlock t n errors warnings p = (applyRules t p).map LineFmt.colored) ∧
    (∀ p, applyRules t p = lastCovering t p) := by
  refine ⟨rfl, ?_, ?_, ?_, ?_⟩
  · intro r i l cap h
    exact matchInfo_longest r t i l cap h
  · intro r i h
    exact matchInfo_complete r t i h
  · intro n errors warnings p he hw
    exact highlightBlock_stateless t n errors warnings he hw p
  · intro p
    exact applyRules_eq_lastCovering t p

/-- Witness for C6: the operator run `+=` in `a+=b` and a concrete
position's final format. -/
theorem highlighter_correct_witness :
    ruleMatches RuleId.operatorRule ("a+=b".toList) 1 2 ∧
    applyRules ("x = 1".toList) 4 = lastCovering ("x = 1".toList) 4 :=
  ⟨((highlighter_correct ("a+=b".toList)).2.1 RuleId.operatorRule 1 2 2 (by decide)).1,
   (highlighter_correct ("x = 1".toList)).2.2.2.2 4⟩

end JaxPY
